import Mathlib

namespace RagModel

open scoped List

/-!
Shallow embedding of the retrieval-fusion and budgeting pipeline of
`AzureAISearchDataSource` — the hybrid-search variant (`src/unnamed/part_000`)
and, where needed, the vector-only variant
(`src/src/app/azureAISearchDataSource.ts`).

Strings are modelled as `List Char`, one entry per UTF-16 code unit; all
characters handled specially by the code lie in the basic multilingual plane,
where JavaScript's `charCodeAt` agrees with the code point.  Relevance scores
(JavaScript numbers) are modelled as rationals.  The two network calls
(embedding, search) are modelled as explicit function parameters plus a call
trace, since the pipeline after them is pure.
-/

/-- Characters removed by `compactWhitespace`'s first replace, the regex
class `[\u200B-\u200D\uFEFF\u2028\u2029]`. -/
def isZeroWidth (c : Char) : Bool :=
  c == '\u200B' || c == '\u200C' || c == '\u200D' ||
  c == '\uFEFF' || c == '\u2028' || c == '\u2029'

/-- The ECMAScript whitespace set used by `String.prototype.trim` and by the
regex class `\s`: tab, LF, VT, FF, CR, space, NBSP, the Unicode space
separators, LS, PS and the BOM. -/
def jsWhitespace (c : Char) : Bool :=
  c == '\t' || c == '\n' || c == '\u000B' || c == '\u000C' || c == '\r' || c == ' ' ||
  c == '\u00A0' || c == '\u1680' || (0x2000 ≤ c.toNat && c.toNat ≤ 0x200A) ||
  c == '\u2028' || c == '\u2029' || c == '\u202F' || c == '\u205F' ||
  c == '\u3000' || c == '\uFEFF'

/-- The regex class `[ \t]` used by the per-line collapse in
`compactWhitespace`. -/
def isSpTab (c : Char) : Bool := c == ' ' || c == '\t'

/-- The break characters `safeTrimToChars` looks for: newline, space, tab. -/
def isBreakChar (c : Char) : Bool := c == '\n' || c == ' ' || c == '\t'

/-- The regex class `[ \t\r\n]` stripped from the end of a cut in
`safeTrimToChars`. -/
def isTrailWs (c : Char) : Bool := c == ' ' || c == '\t' || c == '\r' || c == '\n'

/-- Left half of JavaScript `String.prototype.trim`. -/
def trimLeft (s : List Char) : List Char := s.dropWhile jsWhitespace

/-- Right half of JavaScript `String.prototype.trim`. -/
def trimRight (s : List Char) : List Char := (s.reverse.dropWhile jsWhitespace).reverse

/-- JavaScript `String.prototype.trim`. -/
def jsTrim (s : List Char) : List Char := trimRight (trimLeft s)

/-- Replace every maximal run of characters satisfying `p` by a single
space — the semantics of `replace(/X+/g, " ")` for a character class `X`.
The boolean state records whether the previous character was in a run. -/
def collapseRunsBy (p : Char → Bool) : Bool → List Char → List Char
  | _, [] => []
  | prev, c :: rest =>
    if p c then
      if prev then collapseRunsBy p true rest else ' ' :: collapseRunsBy p true rest
    else c :: collapseRunsBy p false rest

/-- The per-line `replace(/[ \t]+/g, " ")` of `compactWhitespace`. -/
def collapseSpTab (s : List Char) : List Char := collapseRunsBy isSpTab false s

/-- JavaScript `split("\n")`. -/
def splitLines : List Char → List (List Char)
  | [] => [[]]
  | c :: rest =>
    if c = '\n' then [] :: splitLines rest else (splitLines rest).modifyHead (c :: ·)

/-- JavaScript `join("\n")`. -/
def joinLines : List (List Char) → List Char
  | [] => []
  | [l] => l
  | l :: ls => l ++ '\n' :: joinLines ls

/-- The `replace(/\n{3,}/g, "\n\n")` of `compactWhitespace`: cap every run of
newlines at two.  `run` counts the newlines emitted so far in the current
run. -/
def capNLGo (run : Nat) : List Char → List Char
  | [] => []
  | c :: rest =>
    if c = '\n' then
      if 2 ≤ run then capNLGo run rest else '\n' :: capNLGo (run + 1) rest
    else c :: capNLGo 0 rest

/-- The `replace(/\r\n?/g, "\n")` of `compactWhitespace`. -/
def normNewlines : List Char → List Char
  | [] => []
  | '\r' :: '\n' :: rest => '\n' :: normNewlines rest
  | '\r' :: rest => '\n' :: normNewlines rest
  | c :: rest => c :: normNewlines rest

/-- `compactWhitespace` from the source: drop the zero-width class, normalize
line endings, per line collapse `[ \t]+` runs and trim, join, collapse runs
of three or more newlines to two, and trim the whole string. -/
def compactWhitespace (s : List Char) : List Char :=
  let noZW := s.filter (fun c => !isZeroWidth c)
  let unixNL := normNewlines noZW
  let lined := joinLines ((splitLines unixNL).map (fun line => jsTrim (collapseSpTab line)))
  jsTrim (capNLGo 0 lined)

/-- `estimateTokens`: `Math.ceil(text.length / 4)`. -/
def estimateTokens (s : List Char) : Nat := (s.length + 3) / 4

/-- JavaScript `String.prototype.lastIndexOf` for a single character,
with the sentinel `-1` when absent. -/
def lastIndexOfC (c : Char) (s : List Char) : Int :=
  match s.reverse.findIdx? (· == c) with
  | none => -1
  | some j => ((s.length - 1 - j : Nat) : Int)

/-- The `cut.replace(/[ \t\r\n]*$/g, "")` of `safeTrimToChars`. -/
def dropTrailingWs (s : List Char) : List Char := (s.reverse.dropWhile isTrailWs).reverse

/-- `safeTrimToChars` from the source.  The JavaScript comparison
`lastBreak > maxChars * 0.6` is modelled exactly as `5 * lastBreak >
3 * maxChars`; the double rounding of `0.6` never flips this comparison for
integer `lastBreak` below 2^52. -/
def safeTrimToChars (s : List Char) (maxChars : Nat) : List Char :=
  if s.length ≤ maxChars then s
  else
    let slice := s.take (maxChars - 1)
    let lastBreak : Int :=
      max (lastIndexOfC '\n' slice) (max (lastIndexOfC ' ' slice) (lastIndexOfC '\t' slice))
    let cut := if 3 * (maxChars : Int) < 5 * lastBreak then slice.take lastBreak.toNat else slice
    dropTrailingWs cut ++ ['…']

/-- The closing delimiter looked up by `stitchWithTokenBudget`. -/
def closeTag : List Char := "</context>".toList

/-- JavaScript `String.prototype.lastIndexOf` for a substring pattern:
the greatest start index of an occurrence, if any. -/
def lastSubIdx (s pat : List Char) : Option Nat :=
  ((List.range s.length).filter (fun i => decide ((s.drop i).take pat.length = pat))).getLast?

/-- The body of `stitchWithTokenBudget`'s else branch: preserve the
`<context>` wrapper when `indexOf(">")` and `lastIndexOf("</context>")` both
hit, trimming only the slice between them; otherwise trim the raw block. -/
def trimBlock (p : List Char) (approxChars : Nat) : List Char :=
  match p.findIdx? (· == '>'), lastSubIdx p closeTag with
  | some openIdx, some closeIdx =>
    p.take (openIdx + 1)
      ++ safeTrimToChars ((p.drop (openIdx + 1)).take (closeIdx - (openIdx + 1))) approxChars
      ++ p.drop closeIdx
  | _, _ => safeTrimToChars p approxChars

/-- The loop of `stitchWithTokenBudget`.  `used` is the running token count;
a block that fits is kept whole, otherwise — when budget remains — one block
is trimmed to the remaining character allowance and the loop breaks. -/
def stitchGo (maxTokens : Nat) : List (List Char) → Nat → List (List Char)
  | [], _ => []
  | p :: ps, used =>
    let t := estimateTokens p
    if used + t ≤ maxTokens then p :: stitchGo maxTokens ps (used + t)
    else if maxTokens - used = 0 then []
    else [trimBlock p ((maxTokens - used) * 4)]

/-- `stitchWithTokenBudget` from the source (its `stitched` field):
run the budget loop from zero and join the kept blocks with newlines. -/
def stitchWithTokenBudget (pieces : List (List Char)) (maxTokens : Nat) : List Char :=
  joinLines (stitchGo maxTokens pieces 0)

/-- One step of `hashString`'s loop `h = (h * 31 + s.charCodeAt(i)) | 0`,
kept as the residue modulo 2^32.  The JavaScript value is the signed 32-bit
reading of this residue and the final `toString(16)` renders it; both maps
are injective, so equality of the residues coincides with equality of the
keys the source stores in its `Set`. -/
def hashStep (h : Nat) (c : Char) : Nat := (h * 31 + c.toNat) % 4294967296

/-- `hashString` from the source, as the 2^32 residue of the rolling hash. -/
def hashString (s : List Char) : Nat := s.foldl hashStep 0

/-- The loop of `dedupeByHash`; `seen` is the set of hashes already kept. -/
def dedupeGo (seen : List Nat) : List (List Char) → List (List Char)
  | [] => []
  | c :: rest =>
    let key := hashString c
    if key ∈ seen then dedupeGo seen rest else c :: dedupeGo (key :: seen) rest

/-- `dedupeByHash` from the source: keep the first chunk of each hash key. -/
def dedupeByHash (chunks : List (List Char)) : List (List Char) := dedupeGo [] chunks

/-- Sentence terminators recognised by `firstNSentences`. -/
def isTerminator (c : Char) : Bool := c == '.' || c == '!' || c == '?'

/-- The split `text.split(/(?<=[.!?])\s+/)`: a delimiter is a maximal
whitespace run immediately preceded by a terminator.  `skipping` is true
while consuming a delimiter run; `cur` holds the current part reversed. -/
def sentGo (skipping : Bool) (cur : List Char) : List Char → List (List Char)
  | [] => [cur.reverse]
  | c :: rest =>
    if skipping then
      if jsWhitespace c then sentGo true cur rest
      else sentGo false [c] rest
    else if isTerminator c && rest.head?.any jsWhitespace then
      (c :: cur).reverse :: sentGo true [] rest
    else sentGo false (c :: cur) rest

/-- `firstNSentences` from the source: split into sentences, drop empty
parts, keep the first `n`, and rejoin with single spaces. -/
def firstNSentences (text : List Char) (n : Nat) : List Char :=
  List.intercalate [' '] (((sentGo false [] text).filter (fun part => !part.isEmpty)).take n)

/-- Replacement text of `escapeAttr`. -/
def quotEntity : List Char := "&quot;".toList

/-- `escapeAttr` from the source: `replace(/"/g, "&quot;")`. -/
def escapeAttr (v : List Char) : List Char :=
  (v.map (fun c => if c = '"' then quotEntity else [c])).flatten

/-- Literal fragments of the `<context …>` block built by `formatDocument`. -/
def ctxOpen : List Char := "<context source=\"".toList

/-- Fragment between the citation and the content. -/
def ctxMid : List Char := "\">\n".toList

/-- Closing fragment of a context block. -/
def ctxClose : List Char := "\n</context>".toList

/-- The placeholder citation `"(untitled)"`. -/
def untitledStr : List Char := "(untitled)".toList

/-- `formatDocument` from the source: compact the content once more and wrap
it, or return the empty string when the compacted content is empty. -/
def formatDocument (content citation : List Char) : List Char :=
  let clean := compactWhitespace content
  if clean.isEmpty then []
  else ctxOpen ++ escapeAttr citation ++ ctxMid ++ clean ++ ctxClose

/-- The index document shape (`OneDriveChunkDocument`); `Option` covers both
`undefined` and `null`. -/
structure OneDriveChunkDocument where
  chunk_id : Option (List Char)
  parent_id : Option (List Char)
  title : Option (List Char)
  chunk : Option (List Char)
  text_vector : Option (List ℚ)

/-- One search hit: a document plus an optional relevance score. -/
structure SearchResult where
  document : OneDriveChunkDocument
  score : Option ℚ

/-- `shouldClarify` from the source.  The `distinctParents` computation and
`console.debug` call are effect-free and do not influence the result, so they
are omitted. -/
def shouldClarify (minTopScore minScoreGap : ℚ) (items : List SearchResult) : Bool :=
  if items.length = 0 then true
  else if 3 ≤ items.length then false
  else
    let s1 := ((items[0]?).bind (fun r => r.score)).getD 0
    let s2 := ((items[1]?).bind (fun r => r.score)).getD 0
    decide (s1 < minTopScore) && decide (s1 - s2 < minScoreGap)

/-- The grouping key `parent_id ?? chunk_id ?? "_"`. -/
def parentKey (d : OneDriveChunkDocument) : List Char :=
  (d.parent_id.or d.chunk_id).getD ['_']

/-- The loop of `limitByParentAndTotal`: `perParent` is the per-key admission
count (the `Map`, with default 0) and `outLen` the number of admissions so
far.  As in the source, the total cap is tested only after a push. -/
def limitGo (maxPerParent maxTotal : Nat) :
    List SearchResult → (List Char → Nat) → Nat → List SearchResult
  | [], _, _ => []
  | it :: rest, perParent, outLen =>
    let parent := parentKey it.document
    let n := perParent parent
    if n < maxPerParent then
      if maxTotal ≤ outLen + 1 then [it]
      else it :: limitGo maxPerParent maxTotal rest
        (fun k => if k = parent then n + 1 else perParent k) (outLen + 1)
    else limitGo maxPerParent maxTotal rest perParent outLen

/-- `limitByParentAndTotal` from the source. -/
def limitByParentAndTotal (items : List SearchResult) (maxPerParent maxTotal : Nat) :
    List SearchResult :=
  limitGo maxPerParent maxTotal items (fun _ => 0) 0

/-- One aggregation group (`{title, chunks}`) of `groupByParent`. -/
structure Group where
  title : Option (List Char)
  chunks : List (List Char)

/-- JavaScript truthiness of an optional string: `undefined`, `null` and
`""` are falsy. -/
def jsTruthy : Option (List Char) → Bool
  | none => false
  | some s => !s.isEmpty

/-- One `groupByParent` loop body applied to an existing group: push the
chunk when truthy, then backfill a falsy title from a truthy one. -/
def updGroup (g : Group) (d : OneDriveChunkDocument) : Group :=
  let g1 := if jsTruthy d.chunk then { g with chunks := g.chunks ++ [d.chunk.getD []] } else g
  if !jsTruthy g1.title && jsTruthy d.title then { g1 with title := d.title } else g1

/-- Insertion-ordered map update backing `groupByParent`'s `Map`:
update the entry for `key` in place, or append a fresh group (seeded with the
document's title, as in the source) at the end. -/
def updAssoc : List (List Char × Group) → List Char → OneDriveChunkDocument →
    List (List Char × Group)
  | [], key, d => [(key, updGroup { title := d.title, chunks := [] } d)]
  | (k, g) :: rest, key, d =>
    if k = key then (k, updGroup g d) :: rest else (k, g) :: updAssoc rest key d

/-- `groupByParent` from the source: groups in first-appearance order of the
parent key. -/
def groupByParent (items : List SearchResult) : List Group :=
  (items.foldl (fun acc it => updAssoc acc (parentKey it.document) it.document) []).map
    (fun kg => kg.2)

/-- Steps 1–3 of the per-group loop in `renderContext`: compact each chunk,
drop empties, dedupe by hash, join with spaces and keep four sentences. -/
def condenseGroup (g : Group) : List Char :=
  firstNSentences
    (List.intercalate [' ']
      (dedupeByHash ((g.chunks.map compactWhitespace).filter (fun c => !c.isEmpty)))) 4

/-- Step 4 of the per-group loop: the formatted block of one group. -/
def groupPiece (g : Group) : List Char :=
  formatDocument (condenseGroup g) (g.title.getD untitledStr)

/-- The `contexts` array built by `renderContext`: one piece per group whose
trimmed piece is non-empty. -/
def contextsOf (grouped : List Group) : List (List Char) :=
  (grouped.map groupPiece).filter (fun piece => !(jsTrim piece).isEmpty)

/-- The retrieval knobs of the hybrid variant, defaults merged in. -/
structure PipelineOptions where
  kNearestNeighborsCount : Nat
  topPerVariant : Nat
  maxTotalAfterFusion : Nat
  maxPerParent : Nat
  minTopScore : ℚ
  minScoreGap : ℚ
  maxContextTokens : Nat

/-- The constructor defaults of the hybrid variant. -/
def defaultOptions : PipelineOptions :=
  { kNearestNeighborsCount := 16, topPerVariant := 12, maxTotalAfterFusion := 6,
    maxPerParent := 4, minTopScore := 12 / 100, minScoreGap := 1 / 100,
    maxContextTokens := 1200 }

/-- `renderContext` of the hybrid variant, after the two provider calls:
the pure function from the query and the ranked hits to the final string.
The leading `if (!query) return ""` guard and the confidence gate are the
two early exits. -/
def renderContextCore (opts : PipelineOptions) (query : List Char)
    (ranked : List SearchResult) : List Char :=
  if query.isEmpty then []
  else if shouldClarify opts.minTopScore opts.minScoreGap ranked then []
  else
    let picked := limitByParentAndTotal ranked opts.maxPerParent opts.maxTotalAfterFusion
    stitchWithTokenBudget (contextsOf (groupByParent picked)) opts.maxContextTokens

/-- A call to one of the two external providers. -/
inductive ProviderCall where
  | embed (text : List Char)
  | search (query : List Char) (top : Nat)

/-- `renderContext` of the hybrid variant with its provider calls made
explicit: the result is the list of provider calls issued and the returned
string.  The guard `if (!query) return ""` runs before either `await`. -/
def renderContextRun (opts : PipelineOptions)
    (embedFn : List Char → List ℚ)
    (searchFn : List Char → List ℚ → Nat → List SearchResult)
    (query : List Char) : List ProviderCall × List Char :=
  if query.isEmpty then ([], [])
  else
    let vec := embedFn query
    let ranked := searchFn query vec opts.topPerVariant
    ([ProviderCall.embed query, ProviderCall.search query opts.topPerVariant],
      renderContextCore opts query ranked)

/-- Knobs of the vector-only variant. -/
structure V2Options where
  kNearestNeighborsCount : Nat
  top : Nat
  maxReturn : Nat

/-- `formatDocument` of the vector-only variant (no compaction, no empty
check). -/
def formatDocumentV2 (content citation : List Char) : List Char :=
  ctxOpen ++ escapeAttr citation ++ ctxMid ++ content ++ ctxClose

/-- The final `replace(/\s+/g, " ")` of the vector-only variant. -/
def collapseWsAll (s : List Char) : List Char := collapseRunsBy jsWhitespace false s

/-- The body of the vector-only `renderContext` after retrieval: stable sort
by descending score, take the top `maxReturn`, clean and format each hit,
join, collapse whitespace and trim.  `cleanFn` stands for the
`cleanContent` text scrubber, which the reached claims never depend on. -/
def renderV2Body (opts : V2Options) (cleanFn : List Char → List Char)
    (results : List SearchResult) : List Char :=
  let sorted := results.mergeSort (fun a b => decide ((b.score.getD 0) ≤ (a.score.getD 0)))
  let topN := sorted.take opts.maxReturn
  let contexts := topN.filterMap (fun r =>
    let title := r.document.title.getD untitledStr
    let text := cleanFn (r.document.chunk.getD [])
    if (jsTrim text).isEmpty then none else some (formatDocumentV2 text title))
  jsTrim (collapseWsAll (joinLines contexts))

/-- The vector-only `renderContext` with its provider calls made explicit.
Its guard is `if (!query || !query.trim()) return ""`; the search call passes
the empty string as query text. -/
def renderContextRunV2 (opts : V2Options) (cleanFn : List Char → List Char)
    (embedFn : List Char → List ℚ)
    (searchFn : List ℚ → Nat → Nat → List SearchResult)
    (query : List Char) : List ProviderCall × List Char :=
  if query.isEmpty || (jsTrim query).isEmpty then ([], [])
  else
    let vec := embedFn query
    let results := searchFn vec opts.top opts.kNearestNeighborsCount
    ([ProviderCall.embed query, ProviderCall.search [] opts.top],
      renderV2Body opts cleanFn results)

/-- Combined token estimate of a list of blocks, counted per block as the
stitcher's accumulator does. -/
def sumTokens (pieces : List (List Char)) : Nat := (pieces.map estimateTokens).sum

/-- Written from the spec's words (§4.6): the position of "the last
newline/space/tab before the limit" inside the trimming window. -/
def specLastBreak (window : List Char) : Option Nat :=
  ((List.range window.length).filter (fun i => isBreakChar (window.getD i ' '))).getLast?

/-- Written from the spec's words (§4.6): text already within the allowance
is left alone; otherwise cut at the last newline/space/tab before the limit
provided that boundary lies past 60% of the target length, drop the
whitespace at the cut, and append an ellipsis marker. -/
def specSafeTrim (s : List Char) (maxChars : Nat) : List Char :=
  if s.length ≤ maxChars then s
  else
    let window := s.take (maxChars - 1)
    let cut :=
      match specLastBreak window with
      | some i => if 3 * maxChars < 5 * i then window.take i else window
      | none => window
    dropTrailingWs cut ++ ['…']

/-- Written from the spec's words (§4.6): when the block carries a
recognizable open/close delimiter pair — a `>` closing the opening tag and a
final `</context>` — trim only the inner text and re-wrap it with the
original delimiters; otherwise trim the raw block directly. -/
def specTrimBlock (p : List Char) (allowance : Nat) : List Char :=
  match p.findIdx? (· == '>'), lastSubIdx p closeTag with
  | some openIdx, some closeIdx =>
    p.take (openIdx + 1)
      ++ specSafeTrim ((p.drop (openIdx + 1)).take (closeIdx - (openIdx + 1))) allowance
      ++ p.drop closeIdx
  | _, _ => specSafeTrim p allowance

/-- Concrete document used by counterexamples and witnesses. -/
def sampleDoc : OneDriveChunkDocument :=
  { chunk_id := some ['c'], parent_id := some ['p'], title := none,
    chunk := some ['x'], text_vector := none }

/-- Concrete search hit used by counterexamples and witnesses. -/
def sampleHit : SearchResult := { document := sampleDoc, score := some 1 }

/-- Adjacent characters are not both in the `[ \t]` class — the shape left
behind by `collapseSpTab`. -/
def noSS (a b : Char) : Prop := ¬(isSpTab a = true ∧ isSpTab b = true)

/-- Well-formed newline adjacency: a character next to a newline is itself a
newline or not whitespace — the shape left behind by per-line trimming. -/
def nlAdj (a b : Char) : Prop :=
  (a = '\n' → b = '\n' ∨ jsWhitespace b = false) ∧
  (b = '\n' → a = '\n' ∨ jsWhitespace a = false)

/-- Whether three consecutive newlines occur somewhere. -/
def hasTriple : List Char → Bool
  | a :: b :: c :: rest => (a == '\n' && b == '\n' && c == '\n') || hasTriple (b :: c :: rest)
  | _ => false

/-- Length of the leading newline run. -/
def leadNL (s : List Char) : Nat := (s.takeWhile (· == '\n')).length

/-- Both edges of the string are free of JavaScript whitespace. -/
def edgeClean (s : List Char) : Prop :=
  s.head?.all (fun c => !jsWhitespace c) = true ∧
  s.getLast?.all (fun c => !jsWhitespace c) = true

/-- The normal form left behind by `compactWhitespace`: no zero-width
characters, no carriage return, no tab, no adjacent space/tab pair, clean
newline adjacency, no triple newline, and clean edges.  Strings of this shape
are fixed points of the normalizer. -/
def normalForm (t : List Char) : Prop :=
  (∀ x ∈ t, isZeroWidth x = false) ∧ '\r' ∉ t ∧ '\t' ∉ t ∧
  List.Chain' noSS t ∧ List.Chain' nlAdj t ∧ hasTriple t = false ∧ edgeClean t

/-! ### Confidence gate -/

/-- C2: the confidence gate declines exactly when the candidate list is
empty, or has fewer than three candidates with both a top score below
`minTopScore` and a top-to-second gap below `minScoreGap` (the second score
defaulting to 0 when absent); in particular three or more candidates always
proceed. -/
theorem c2_gate_iff (minTop minGap : ℚ) (items : List SearchResult) :
    shouldClarify minTop minGap items = true ↔
      (items = [] ∨
        (items.length < 3 ∧
          ((items[0]?).bind (fun r => r.score)).getD 0 < minTop ∧
          ((items[0]?).bind (fun r => r.score)).getD 0
            - ((items[1]?).bind (fun r => r.score)).getD 0 < minGap)) := by
  unfold shouldClarify
  split_ifs with h1 h2
  · simp [List.length_eq_zero.mp h1]
  · constructor
    · intro h; simp at h
    · rintro (rfl | ⟨hlt, -, -⟩)
      · simp at h1
      · omega
  · dsimp only
    rw [Bool.and_eq_true, decide_eq_true_eq, decide_eq_true_eq]
    constructor
    · rintro ⟨ha, hb⟩
      exact Or.inr ⟨by omega, ha, hb⟩
    · rintro (rfl | ⟨-, ha, hb⟩)
      · simp at h1
      · exact ⟨ha, hb⟩

/-! ### Budget stitcher accounting -/

/-- The stitcher loop keeps a prefix of the blocks whole — their estimates
summing, together with the tokens already used, to at most the budget — plus
at most one trimmed block. -/
theorem stitchGo_take_spec (maxTokens : Nat) (pieces : List (List Char)) :
    ∀ used, used ≤ maxTokens →
      ∃ n extra, stitchGo maxTokens pieces used = pieces.take n ++ extra ∧
        used + sumTokens (pieces.take n) ≤ maxTokens ∧ extra.length ≤ 1 := by
  induction pieces with
  | nil =>
    intro used hu
    exact ⟨0, [], by simp [stitchGo], by simpa [sumTokens] using hu, by simp⟩
  | cons p ps ih =>
    intro used hu
    by_cases hfit : used + estimateTokens p ≤ maxTokens
    · obtain ⟨n, extra, he, hb, hl⟩ := ih (used + estimateTokens p) hfit
      refine ⟨n + 1, extra, ?_, ?_, hl⟩
      · simp only [stitchGo, hfit, if_pos, List.take_succ_cons, List.cons_append]
        rw [he]
      · simp only [List.take_succ_cons, sumTokens, List.map_cons, List.sum_cons] at hb ⊢
        omega
    · by_cases hz : maxTokens - used = 0
      · exact ⟨0, [], by simp [stitchGo, hfit, hz], by simpa [sumTokens] using hu, by simp⟩
      · exact ⟨0, [trimBlock p ((maxTokens - used) * 4)], by simp [stitchGo, hfit, hz],
          by simpa [sumTokens] using hu, by simp⟩

/-- C1 (amended): for every block list and budget, the stitcher keeps an
initial prefix of the blocks whole, whose per-block estimated token counts
sum to at most `maxContextTokens`, followed by at most one further (trimmed)
block; the joined output string itself can exceed the budget in estimated
tokens, because the joining newlines and the preserved wrapper characters of
a trimmed block are not counted (see the counterexample). -/
theorem c1_budget_bounds_whole_blocks (pieces : List (List Char)) (maxTokens : Nat) :
    ∃ n extra,
      stitchWithTokenBudget pieces maxTokens = joinLines (pieces.take n ++ extra) ∧
      stitchGo maxTokens pieces 0 = pieces.take n ++ extra ∧
      sumTokens (pieces.take n) ≤ maxTokens ∧ extra.length ≤ 1 := by
  obtain ⟨n, extra, he, hb, hl⟩ := stitchGo_take_spec maxTokens pieces 0 (Nat.zero_le _)
  exact ⟨n, extra, by rw [stitchWithTokenBudget, he], he, by simpa using hb, hl⟩

/-- C1 counterexample: two four-character blocks (one estimated token each)
fit a budget of 2, but the joined string "aaaa\nbbbb" has nine characters and
estimated token count 3, exceeding the budget. -/
theorem c1_counterexample :
    2 < estimateTokens (stitchWithTokenBudget [['a','a','a','a'], ['b','b','b','b']] 2) := by
  decide

/-! ### Diversity selector -/

/-- The selector loop returns a sublist of its input. -/
theorem limitGo_sublist (maxPerParent maxTotal : Nat) (items : List SearchResult) :
    ∀ perParent outLen, limitGo maxPerParent maxTotal items perParent outLen <+ items := by
  induction items with
  | nil => intro _ _; simp [limitGo]
  | cons it rest ih =>
    intro perParent outLen
    simp only [limitGo]
    split_ifs with h1 h2
    · exact (List.nil_sublist rest).cons₂ it
    · exact (ih _ _).cons₂ it
    · exact (ih _ _).cons it

/-- The selector loop admits at most `maxPerParent - perParent k` further
candidates of any key `k`. -/
theorem limitGo_countP (maxPerParent maxTotal : Nat) (items : List SearchResult) :
    ∀ perParent outLen (k : List Char),
      (limitGo maxPerParent maxTotal items perParent outLen).countP
          (fun r => decide (parentKey r.document = k))
        ≤ maxPerParent - perParent k := by
  induction items with
  | nil => intro _ _ _; simp [limitGo]
  | cons it rest ih =>
    intro perParent outLen k
    simp only [limitGo]
    split_ifs with h1 h2
    · by_cases hk : parentKey it.document = k
      · subst hk
        rw [List.countP_cons_of_pos _ _ (by simp)]
        simp only [List.countP_nil]
        omega
      · rw [List.countP_cons_of_neg _ _ (by simp [hk])]
        simp
    · by_cases hk : parentKey it.document = k
      · subst hk
        rw [List.countP_cons_of_pos _ _ (by simp)]
        have hrec := ih
          (fun k2 => if k2 = parentKey it.document
            then perParent (parentKey it.document) + 1 else perParent k2) (outLen + 1)
          (parentKey it.document)
        rw [if_pos rfl] at hrec
        omega
      · rw [List.countP_cons_of_neg _ _ (by simp [hk])]
        have hrec := ih
          (fun k2 => if k2 = parentKey it.document
            then perParent (parentKey it.document) + 1 else perParent k2) (outLen + 1) k
        rw [if_neg (fun h => hk h.symm)] at hrec
        exact hrec
    · exact ih _ _ _

/-- The selector loop admits at most `maxTotal - outLen` further candidates
while the total cap has not yet been reached. -/
theorem limitGo_length (maxPerParent maxTotal : Nat) (items : List SearchResult) :
    ∀ perParent outLen, outLen < maxTotal →
      (limitGo maxPerParent maxTotal items perParent outLen).length ≤ maxTotal - outLen := by
  induction items with
  | nil => intro _ _ _; simp [limitGo]
  | cons it rest ih =>
    intro perParent outLen hlt
    simp only [limitGo]
    split_ifs with h1 h2
    · simp; omega
    · have := ih (fun k2 => if k2 = parentKey it.document
          then perParent (parentKey it.document) + 1 else perParent k2) (outLen + 1) (by omega)
      simp only [List.length_cons]
      omega
    · exact ih _ _ hlt

/-- C3 (amended): the selector output is a subsequence of the input (order
preserved), no parent key contributes more than `maxPerParent` entries, and
for every `maxTotal ≥ 1` the output size is at most `maxTotal`; for
`maxTotal = 0` the selector can still admit one candidate, because the code
checks the total cap only after an admission (see the counterexample). -/
theorem c3_selector_caps (items : List SearchResult) (maxPerParent maxTotal : Nat) :
    limitByParentAndTotal items maxPerParent maxTotal <+ items ∧
    (∀ k, (limitByParentAndTotal items maxPerParent maxTotal).countP
        (fun r => decide (parentKey r.document = k)) ≤ maxPerParent) ∧
    (1 ≤ maxTotal → (limitByParentAndTotal items maxPerParent maxTotal).length ≤ maxTotal) := by
  refine ⟨limitGo_sublist _ _ _ _ _, fun k => ?_, fun h => ?_⟩
  · simpa using limitGo_countP maxPerParent maxTotal items (fun _ => 0) 0 k
  · simpa using limitGo_length maxPerParent maxTotal items (fun _ => 0) 0 (by omega)

/-- C3 counterexample: with `maxPerParent = 1` and `maxTotal = 0` the
selector still admits one candidate, so its size exceeds `maxTotal`. -/
theorem c3_counterexample :
    ¬ ((limitByParentAndTotal [sampleHit] 1 0).length ≤ 0) := by decide

/-- C3 witness: the amended bound evaluated at a concrete one-candidate list
with `maxTotal = 1`. -/
theorem c3_witness :
    limitByParentAndTotal [sampleHit] 1 1 <+ [sampleHit] ∧
    (limitByParentAndTotal [sampleHit] 1 1).length ≤ 1 :=
  ⟨(c3_selector_caps [sampleHit] 1 1).1, (c3_selector_caps [sampleHit] 1 1).2.2 (by decide)⟩

/-! ### Deduper -/

/-- The dedupe loop returns a sublist of its input. -/
theorem dedupeGo_sublist (l : List (List Char)) : ∀ seen, dedupeGo seen l <+ l := by
  induction l with
  | nil => intro _; simp [dedupeGo]
  | cons c rest ih =>
    intro seen
    simp only [dedupeGo]
    split_ifs with h
    · exact (ih seen).cons c
    · exact (ih _).cons₂ c

/-- The dedupe loop yields pairwise distinct hashes, none of them in
`seen`. -/
theorem dedupeGo_pairwise (l : List (List Char)) :
    ∀ seen, (dedupeGo seen l).Pairwise (fun a b => hashString a ≠ hashString b) ∧
      ∀ y ∈ dedupeGo seen l, hashString y ∉ seen := by
  induction l with
  | nil => intro _; simp [dedupeGo]
  | cons c rest ih =>
    intro seen
    simp only [dedupeGo]
    split_ifs with h
    · exact ih seen
    · obtain ⟨hp, hs⟩ := ih (hashString c :: seen)
      refine ⟨List.Pairwise.cons (fun y hy heq => ?_) hp, fun y hy => ?_⟩
      · have h2 := hs y hy
        simp only [List.mem_cons, not_or] at h2
        exact h2.1 heq.symm
      · rcases List.mem_cons.mp hy with rfl | hy'
        · exact h
        · have h2 := hs y hy'
          simp only [List.mem_cons, not_or] at h2
          exact h2.2

/-- Every input chunk has a hash representative in the dedupe output, unless
its hash was already in `seen`. -/
theorem dedupeGo_cover (l : List (List Char)) :
    ∀ seen x, x ∈ l →
      hashString x ∈ seen ∨ ∃ y ∈ dedupeGo seen l, hashString y = hashString x := by
  induction l with
  | nil => intro _ x hx; cases hx
  | cons c rest ih =>
    intro seen x hx
    simp only [dedupeGo]
    split_ifs with h
    · rcases List.mem_cons.mp hx with rfl | hx'
      · exact Or.inl h
      · exact ih seen x hx'
    · rcases List.mem_cons.mp hx with rfl | hx'
      · exact Or.inr ⟨x, List.mem_cons_self _ _, rfl⟩
      · rcases ih (hashString c :: seen) x hx' with hmem | ⟨y, hy, he⟩
        · rcases List.mem_cons.mp hmem with heq | hseen
          · exact Or.inr ⟨c, List.mem_cons_self _ _, heq.symm⟩
          · exact Or.inl hseen
        · exact Or.inr ⟨y, List.mem_cons_of_mem _ hy, he⟩

/-- A chunk whose hash is fresh — no earlier chunk shares it and it is not in
`seen` — is kept by the dedupe loop. -/
theorem dedupeGo_keeps_first (x : List Char) (l₂ : List (List Char)) :
    ∀ (l₁ : List (List Char)) seen, (∀ y ∈ l₁, hashString y ≠ hashString x) →
      hashString x ∉ seen → x ∈ dedupeGo seen (l₁ ++ x :: l₂) := by
  intro l₁
  induction l₁ with
  | nil =>
    intro seen _ hns
    simp only [List.nil_append, dedupeGo]
    rw [if_neg hns]
    exact List.mem_cons_self _ _
  | cons y l₁' ih =>
    intro seen hne hns
    simp only [List.cons_append, dedupeGo]
    split_ifs with h
    · exact ih seen (fun z hz => hne z (List.mem_cons_of_mem _ hz)) hns
    · refine List.mem_cons_of_mem _
        (ih (hashString y :: seen) (fun z hz => hne z (List.mem_cons_of_mem _ hz)) ?_)
      simp only [List.mem_cons, not_or]
      exact ⟨fun heq => hne y (List.mem_cons_self _ _) heq.symm, hns⟩

/-- C4 (amended): within one group the deduper keeps a subsequence of the
normalized fragments with pairwise distinct hash fingerprints — so every
later exact repeat is removed and each value occurs at most once — every
fragment keeps a representative with its fingerprint, and the first fragment
of each fingerprint (in particular of each text) is kept; distinct fragments
with colliding fingerprints are however also removed (see the
counterexample), and groups are deduplicated independently of one another. -/
theorem c4_dedupe_scoped (l : List (List Char)) :
    dedupeByHash l <+ l ∧
    (dedupeByHash l).Pairwise (fun a b => hashString a ≠ hashString b) ∧
    (∀ x ∈ l, ∃ y ∈ dedupeByHash l, hashString y = hashString x) ∧
    (dedupeByHash l).Nodup ∧
    (∀ l₁ x l₂, l = l₁ ++ x :: l₂ → (∀ y ∈ l₁, hashString y ≠ hashString x) →
      x ∈ dedupeByHash l) := by
  obtain ⟨hp, -⟩ := dedupeGo_pairwise l []
  refine ⟨dedupeGo_sublist l [], hp, fun x hx => ?_,
    hp.imp (fun hne heq => hne (by rw [heq])), fun l₁ x l₂ hl hne => ?_⟩
  · rcases dedupeGo_cover l [] x hx with h | h
    · simp at h
    · exact h
  · rw [hl]
    exact dedupeGo_keeps_first x l₂ l₁ [] hne (by simp)

/-- C4 counterexample: "Aa" and "BB" are distinct fragments with the same
rolling hash (2112), so the deduper drops "BB" although it is not an exact
repeat — deduplication removes more than exactly the later exact repeats. -/
theorem c4_counterexample :
    dedupeByHash [['A','a'], ['B','B']] = [['A','a']] ∧
      (['A','a'] : List Char) ≠ ['B','B'] := by decide

/-- C4 witness: the first-occurrence clause evaluated on a concrete
singleton group. -/
theorem c4_witness : (['x'] : List Char) ∈ dedupeByHash [['x']] :=
  (c4_dedupe_scoped [['x']]).2.2.2.2 [] ['x'] [] rfl (by simp)

/-! ### Budget stitcher trimming (C5 refinement) -/

/-- The last position satisfying `p`, computed as the spec side does (last
filtered index), equals the first hit of a backwards scan. -/
theorem lastFilter_eq_findIdxRev (p : Char → Bool) (s : List Char) :
    ((List.range s.length).filter (fun i => p (s.getD i ' '))).getLast? =
      (s.reverse.findIdx? p).map (fun j => s.length - 1 - j) := by
  induction s using List.reverseRecOn with
  | nil => simp
  | append_singleton l a ih =>
    have hlen : (l ++ [a]).length = l.length + 1 := by simp
    have hcong : (List.range l.length).filter (fun i => p ((l ++ [a]).getD i ' ')) =
        (List.range l.length).filter (fun i => p (l.getD i ' ')) := by
      apply List.filter_congr
      intro i hi
      rw [List.mem_range] at hi
      rw [List.getD_append _ _ _ _ hi]
    have hgetD : (l ++ [a]).getD l.length ' ' = a := by
      rw [List.getD_eq_getElem?_getD, List.getElem?_concat_length]
      rfl
    have hrev : (l ++ [a]).reverse = a :: l.reverse := by simp
    rw [hlen, List.range_succ, List.filter_append, hcong, hrev]
    by_cases hpa : p a
    · have hfil : (List.filter (fun i => p ((l ++ [a]).getD i ' ')) [l.length]) = [l.length] := by
        simp [hgetD, hpa]
      rw [hfil, List.getLast?_concat, List.findIdx?_cons, if_pos hpa]
      simp only [Option.map_some', Option.some.injEq]
      omega
    · have hfil : (List.filter (fun i => p ((l ++ [a]).getD i ' ')) [l.length]) = [] := by
        simp [hgetD, hpa]
      rw [hfil, List.append_nil, ih, List.findIdx?_cons, if_neg hpa, List.findIdx?_succ]
      cases hf : l.reverse.findIdx? p with
      | none => simp
      | some j =>
        simp only [Option.map_some', Option.some.injEq]
        omega

/-- A forward scan for `p x || q x` hits the smaller of the two individual
first hits. -/
theorem findIdx?_or (l : List Char) (p q : Char → Bool) :
    l.findIdx? (fun x => p x || q x) =
      match l.findIdx? p, l.findIdx? q with
      | none, o => o
      | some i, none => some i
      | some i, some j => some (min i j) := by
  induction l with
  | nil => simp
  | cons c rest ih =>
    have hcons : ∀ (f : Char → Bool), (c :: rest).findIdx? f =
        if f c then some 0 else (rest.findIdx? f).map (· + 1) := by
      intro f
      rw [List.findIdx?_cons, List.findIdx?_succ]
    rw [hcons, hcons, hcons, ih]
    by_cases hp : p c <;> by_cases hq : q c <;>
      cases h1 : rest.findIdx? p <;> cases h2 : rest.findIdx? q <;>
        (try simp [hp, hq, h1, h2, Nat.succ_min_succ])

/-- Arithmetic shape of the eight `lastIndexOf` case analyses below. -/
theorem maxCase1 : max (-1:Int) (max (-1:Int) (-1:Int)) = -1 := by omega

/-- Arithmetic shape of the `lastIndexOf` case analysis below. -/
theorem maxCase2 (n v : Nat) : max (-1:Int) (max (-1:Int) ((n - 1 - v : Nat):Int)) = ((n - 1 - v : Nat):Int) := by omega

/-- Arithmetic shape of the `lastIndexOf` case analysis below. -/
theorem maxCase3 (n v : Nat) : max (-1:Int) (max ((n-1-v : Nat):Int) (-1:Int)) = ((n-1-v:Nat):Int) := by omega

/-- Arithmetic shape of the `lastIndexOf` case analysis below. -/
theorem maxCase4 (n j k : Nat) : max (-1:Int) (max ((n-1-j:Nat):Int) ((n-1-k:Nat):Int)) = ((n-1-(min j k):Nat):Int) := by omega

/-- Arithmetic shape of the `lastIndexOf` case analysis below. -/
theorem maxCase5 (n v : Nat) : max ((n-1-v:Nat):Int) (max (-1:Int) (-1:Int)) = ((n-1-v:Nat):Int) := by omega

/-- Arithmetic shape of the `lastIndexOf` case analysis below. -/
theorem maxCase6 (n i k : Nat) : max ((n-1-i:Nat):Int) (max (-1:Int) ((n-1-k:Nat):Int)) = ((n-1-(min i k):Nat):Int) := by omega

/-- Arithmetic shape of the `lastIndexOf` case analysis below. -/
theorem maxCase7 (n i j : Nat) : max ((n-1-i:Nat):Int) (max ((n-1-j:Nat):Int) (-1:Int)) = ((n-1-(min i j):Nat):Int) := by omega

/-- Arithmetic shape of the `lastIndexOf` case analysis below. -/
theorem maxCase8 (n i j k : Nat) : max ((n-1-i:Nat):Int) (max ((n-1-j:Nat):Int) ((n-1-k:Nat):Int)) = ((n-1-(min i (min j k)):Nat):Int) := by omega

/-- The code's `Math.max` of the three `lastIndexOf` sentinels equals the
spec-side last break position (with `-1` for "no break"). -/
theorem lastBreak_eq_spec (s : List Char) :
    max (lastIndexOfC '\n' s) (max (lastIndexOfC ' ' s) (lastIndexOfC '\t' s)) =
      (match specLastBreak s with
      | none => (-1 : Int)
      | some i => (i : Int)) := by
  unfold lastIndexOfC specLastBreak
  rw [lastFilter_eq_findIdxRev isBreakChar s]
  have hbreak : s.reverse.findIdx? isBreakChar =
      match s.reverse.findIdx? (· == '\n'),
          (s.reverse.findIdx? (fun x => x == ' ' || x == '\t')) with
      | none, o => o
      | some i, none => some i
      | some i, some j => some (min i j) := by
    have h2 := findIdx?_or s.reverse (· == '\n') (fun x => x == ' ' || x == '\t')
    have hfun : isBreakChar = fun x : Char => x == '\n' || (x == ' ' || x == '\t') := by
      funext x
      unfold isBreakChar
      cases hx1 : x == '\n' <;> cases hx2 : x == ' ' <;> cases hx3 : x == '\t' <;> simp_all
    rw [hfun, h2]
  have hst := findIdx?_or s.reverse (· == ' ') (· == '\t')
  have hfun2 : (fun x : Char => x == ' ' || x == '\t') = fun x : Char => (· == ' ') x || (· == '\t') x := rfl
  rw [hfun2, hst] at hbreak
  rw [hbreak]
  cases hn : s.reverse.findIdx? (· == '\n') <;>
    cases hsp : s.reverse.findIdx? (· == ' ') <;>
      cases ht : s.reverse.findIdx? (· == '\t') <;>
        (try simp only [Option.map_none', Option.map_some']) <;> (try dsimp only) <;>
          first
          | exact maxCase1
          | exact maxCase2 _ _
          | exact maxCase3 _ _
          | exact maxCase4 _ _ _
          | exact maxCase5 _ _
          | exact maxCase6 _ _ _
          | exact maxCase7 _ _ _
          | exact maxCase8 _ _ _ _

/-- `safeTrimToChars` implements the spec-side trimming. -/
theorem safeTrim_eq_spec (s : List Char) (maxChars : Nat) :
    safeTrimToChars s maxChars = specSafeTrim s maxChars := by
  unfold safeTrimToChars specSafeTrim
  split_ifs with h
  · rfl
  · dsimp only
    have hb := lastBreak_eq_spec (s.take (maxChars - 1))
    cases hsp : specLastBreak (s.take (maxChars - 1)) with
    | none =>
      rw [hsp] at hb
      simp only [] at hb
      rw [hb, if_neg (by omega)]
    | some i =>
      rw [hsp] at hb
      simp only [] at hb
      rw [hb]
      dsimp only
      by_cases hc : 3 * maxChars < 5 * i
      · rw [if_pos (by exact_mod_cast hc), if_pos hc]
        simp
      · rw [if_neg (by exact_mod_cast hc), if_neg hc]

/-- `trimBlock` implements the spec-side wrapper-preserving trim. -/
theorem trimBlock_eq_spec (p : List Char) (a : Nat) : trimBlock p a = specTrimBlock p a := by
  unfold trimBlock specTrimBlock
  cases p.findIdx? (· == '>') <;> cases lastSubIdx p closeTag <;>
    simp [safeTrim_eq_spec]

/-- C5: when the next block does not fit in the remaining budget and the
remaining budget is positive, the stitcher emits exactly one final block,
trimmed to `remainingTokens * 4` characters as the spec describes — inner
text re-wrapped in its delimiters when a pair is recognized, cut at the last
newline/space/tab past 60% of the target, ellipsis appended — and the blocks
after it are never considered. -/
theorem c5_trim_last_block (maxTokens used : Nat) (p : List Char) (rest : List (List Char))
    (hbig : maxTokens < used + estimateTokens p) (hrem : 0 < maxTokens - used) :
    stitchGo maxTokens (p :: rest) used = [specTrimBlock p ((maxTokens - used) * 4)] := by
  have h1 : ¬ (used + estimateTokens p ≤ maxTokens) := by omega
  have h2 : ¬ (maxTokens - used = 0) := by omega
  simp [stitchGo, h1, h2, trimBlock_eq_spec]

/-- C5 witness: a ten-character block under budget 1 with one further block
pending is trimmed to allowance 4 and ends the stitching. -/
theorem c5_witness :
    stitchGo 1 [['a','b','c','d','e','f','g','h','i','j'], ['z']] 0 =
      [specTrimBlock ['a','b','c','d','e','f','g','h','i','j'] 4] :=
  c5_trim_last_block 1 0 ['a','b','c','d','e','f','g','h','i','j'] [['z']]
    (by decide) (by decide)

/-! ### Normalizer and empty results -/

/-- C6 (code bug): the normalizer is documented — in the spec and in the
function's own comment — as stripping control characters, but the control
character U+0007 passes through `compactWhitespace` untouched. -/
theorem c6_control_char_survives :
    compactWhitespace ['a', '\x07', 'b'] = ['a', '\x07', 'b'] ∧ ('\x07').toNat < 32 := by
  decide

/-- C8: an empty candidate list — and, more generally, any list the
confidence gate declines — makes the pure part of `renderContext` return the
empty string: a normal, total, empty-result outcome rather than an error. -/
theorem c8_gate_decline_empty (opts : PipelineOptions) (query : List Char) :
    renderContextCore opts query [] = [] ∧
    ∀ ranked, shouldClarify opts.minTopScore opts.minScoreGap ranked = true →
      renderContextCore opts query ranked = [] := by
  constructor
  · simp [renderContextCore, shouldClarify]
  · intro ranked hg
    simp [renderContextCore, hg]

/-- C8 witness: the gate-decline clause evaluated at the default options and
a concrete query. -/
theorem c8_witness : renderContextCore defaultOptions ['q'] [] = [] :=
  (c8_gate_decline_empty defaultOptions ['q']).2 [] (by decide)

/-- C9: a group whose condensed text compacts to the empty string produces
the empty piece, and contributes no block at all to the contexts array — not
an empty tag pair. -/
theorem c9_empty_group_no_block (g : Group)
    (hg : compactWhitespace (condenseGroup g) = []) :
    groupPiece g = [] ∧
    ∀ pre post : List Group, contextsOf (pre ++ g :: post) = contextsOf (pre ++ post) := by
  have hp : groupPiece g = [] := by
    simp [groupPiece, formatDocument, hg]
  refine ⟨hp, fun pre post => ?_⟩
  unfold contextsOf
  rw [List.map_append, List.map_append, List.filter_append, List.filter_append,
    List.map_cons, List.filter_cons]
  simp [hp, jsTrim, trimLeft, trimRight]

/-- C9 witness: a group with a whitespace-only fragment produces the empty
piece. -/
theorem c9_witness : groupPiece { title := none, chunks := [[' ']] } = [] :=
  (c9_empty_group_no_block { title := none, chunks := [[' ']] } (by decide)).1

/-- C10: the empty query makes the hybrid `renderContext` return "" with no
provider calls at all; the vector-only variant does the same for every query
that trims to the empty string. -/
theorem c10_empty_query_short_circuits :
    (∀ opts embedFn searchFn, renderContextRun opts embedFn searchFn [] = ([], [])) ∧
    (∀ opts cleanFn embedFn searchFn query, jsTrim query = [] →
      renderContextRunV2 opts cleanFn embedFn searchFn query = ([], [])) := by
  constructor
  · intro opts e s
    simp [renderContextRun]
  · intro opts c e s q hq
    unfold renderContextRunV2
    rw [hq]
    simp

/-- C10 witness: the vector-only variant on the whitespace-only query " "
issues no provider call and returns "". -/
theorem c10_witness :
    renderContextRunV2 ⟨1, 1, 1⟩ (fun s => s) (fun _ => []) (fun _ _ _ => []) [' '] = ([], []) :=
  c10_empty_query_short_circuits.2 ⟨1, 1, 1⟩ (fun s => s) (fun _ => []) (fun _ _ _ => [])
    [' '] (by decide)

/-! ### Normalizer idempotence (C7): membership and shape lemmas -/

/-- Characters of a collapse output: original non-class characters, plus the
inserted spaces. -/
theorem mem_collapseRunsBy {p : Char → Bool} {x : Char} :
    ∀ {b : Bool} {t : List Char}, x ∈ collapseRunsBy p b t →
      (x ∈ t ∧ p x = false) ∨ x = ' ' := by
  intro b t
  induction t generalizing b with
  | nil => intro h; simp [collapseRunsBy] at h
  | cons c rest ih =>
    intro hx
    simp only [collapseRunsBy] at hx
    split_ifs at hx with h1 h2
    · rcases ih hx with ⟨hm, hp⟩ | hsp
      · exact Or.inl ⟨List.mem_cons_of_mem _ hm, hp⟩
      · exact Or.inr hsp
    · rcases List.mem_cons.mp hx with rfl | hx'
      · exact Or.inr rfl
      · rcases ih hx' with ⟨hm, hp⟩ | hsp
        · exact Or.inl ⟨List.mem_cons_of_mem _ hm, hp⟩
        · exact Or.inr hsp
    · rcases List.mem_cons.mp hx with rfl | hx'
      · exact Or.inl ⟨List.mem_cons_self _ _, by simpa using h1⟩
      · rcases ih hx' with ⟨hm, hp⟩ | hsp
        · exact Or.inl ⟨List.mem_cons_of_mem _ hm, hp⟩
        · exact Or.inr hsp

/-- Trimming only removes characters. -/
theorem jsTrim_subset (t : List Char) : ∀ x ∈ jsTrim t, x ∈ t := by
  intro x hx
  unfold jsTrim trimRight trimLeft at hx
  rw [List.mem_reverse] at hx
  have hx2 := (List.dropWhile_sublist jsWhitespace).subset hx
  rw [List.mem_reverse] at hx2
  exact (List.dropWhile_sublist jsWhitespace).subset hx2

/-- Splitting always yields at least one line. -/
theorem splitLines_ne_nil (t : List Char) : splitLines t ≠ [] := by
  induction t with
  | nil => simp [splitLines]
  | cons c rest ih =>
    simp only [splitLines]
    split_ifs
    · simp
    · cases h : splitLines rest with
      | nil => exact absurd h ih
      | cons l ls => simp [h]

/-- Unfolding of `splitLines` on a newline. -/
theorem splitLines_cons_nl (u : List Char) : splitLines ('\n' :: u) = [] :: splitLines u := by
  simp [splitLines]

/-- Unfolding of `splitLines` on a non-newline head. -/
theorem splitLines_cons_ne {c : Char} (h : ¬ c = '\n') (u : List Char) :
    splitLines (c :: u) = (splitLines u).modifyHead (c :: ·) := by
  simp [splitLines, h]

/-- Lines contain no newline. -/
theorem splitLines_no_nl (t : List Char) : ∀ l ∈ splitLines t, '\n' ∉ l := by
  induction t with
  | nil =>
    intro l hl
    simp only [splitLines, List.mem_singleton] at hl
    simp [hl]
  | cons c rest ih =>
    intro l hl
    simp only [splitLines] at hl
    split_ifs at hl with h1
    · rcases List.mem_cons.mp hl with rfl | hl'
      · simp
      · exact ih l hl'
    · cases hs : splitLines rest with
      | nil => exact absurd hs (splitLines_ne_nil rest)
      | cons l0 ls =>
        rw [hs, List.modifyHead_cons] at hl
        rcases List.mem_cons.mp hl with rfl | hl'
        · intro hmem
          rcases List.mem_cons.mp hmem with h | h
          · exact h1 h.symm
          · exact ih l0 (by rw [hs]; exact List.mem_cons_self _ _) h
        · exact ih l (by rw [hs]; exact List.mem_cons_of_mem _ hl')

/-- The head line of a split is a prefix of the string. -/
theorem splitLines_head_prefix (t : List Char) :
    ∀ l0 ls, splitLines t = l0 :: ls → l0 <+: t := by
  induction t with
  | nil =>
    intro l0 ls h
    simp only [splitLines] at h
    cases h
    exact List.nil_prefix
  | cons c rest ih =>
    intro l0 ls h
    simp only [splitLines] at h
    split_ifs at h with h1
    · cases h
      exact List.nil_prefix
    · cases hs : splitLines rest with
      | nil => exact absurd hs (splitLines_ne_nil rest)
      | cons m ms =>
        rw [hs, List.modifyHead_cons] at h
        injection h with h2 h3
        subst h2
        obtain ⟨w, hw⟩ := ih m ms hs
        exact ⟨w, by simp [← hw]⟩

/-- Every line of a split is an infix of the string. -/
theorem splitLines_infix_mem (t : List Char) : ∀ l ∈ splitLines t, l <:+: t := by
  induction t with
  | nil =>
    intro l hl
    simp only [splitLines, List.mem_singleton] at hl
    simp [hl]
  | cons c rest ih =>
    intro l hl
    simp only [splitLines] at hl
    split_ifs at hl with h1
    · rcases List.mem_cons.mp hl with rfl | hl'
      · exact List.nil_infix
      · exact (ih l hl').trans (List.suffix_cons c rest).isInfix
    · cases hs : splitLines rest with
      | nil => exact absurd hs (splitLines_ne_nil rest)
      | cons l0 ls =>
        rw [hs, List.modifyHead_cons] at hl
        rcases List.mem_cons.mp hl with rfl | hl'
        · obtain ⟨w, hw⟩ := splitLines_head_prefix rest l0 ls hs
          exact List.IsPrefix.isInfix ⟨w, by simp [← hw]⟩
        · exact (ih l (by rw [hs]; exact List.mem_cons_of_mem _ hl')).trans
            (List.suffix_cons c rest).isInfix

/-- The two-line unfolding of `joinLines`. -/
theorem joinLines_cons₂ (l l2 : List Char) (ls : List (List Char)) :
    joinLines (l :: l2 :: ls) = l ++ '\n' :: joinLines (l2 :: ls) := rfl

/-- Characters of a join: line characters and the inserted newlines. -/
theorem mem_joinLines {x : Char} :
    ∀ {ls : List (List Char)}, x ∈ joinLines ls → x = '\n' ∨ ∃ l ∈ ls, x ∈ l := by
  intro ls
  induction ls with
  | nil => intro h; simp [joinLines] at h
  | cons l ls' ih =>
    intro hx
    cases ls' with
    | nil => exact Or.inr ⟨l, by simp, by simpa [joinLines] using hx⟩
    | cons l2 ls2 =>
      rw [joinLines_cons₂] at hx
      rcases List.mem_append.mp hx with h | h
      · exact Or.inr ⟨l, by simp, h⟩
      · rcases List.mem_cons.mp h with rfl | h'
        · exact Or.inl rfl
        · rcases ih h' with h'' | ⟨m, hm, hxm⟩
          · exact Or.inl h''
          · exact Or.inr ⟨m, List.mem_cons_of_mem _ hm, hxm⟩

/-- Newline capping only removes characters. -/
theorem mem_capNLGo {x : Char} : ∀ {run t}, x ∈ capNLGo run t → x ∈ t := by
  intro run t
  induction t generalizing run with
  | nil => intro h; simp [capNLGo] at h
  | cons c rest ih =>
    intro hx
    simp only [capNLGo] at hx
    split_ifs at hx with h1 h2
    · exact List.mem_cons_of_mem _ (ih hx)
    · rcases List.mem_cons.mp hx with rfl | hx'
      · rw [h1]; exact List.mem_cons_self _ _
      · exact List.mem_cons_of_mem _ (ih hx')
    · rcases List.mem_cons.mp hx with rfl | hx'
      · exact List.mem_cons_self _ _
      · exact List.mem_cons_of_mem _ (ih hx')

/-- Characters of a newline-normalized string: originals and newlines. -/
theorem mem_normNewlines {x : Char} : ∀ {t}, x ∈ normNewlines t → x ∈ t ∨ x = '\n' := by
  intro t
  induction t using normNewlines.induct with
  | case1 => intro h; simp [normNewlines] at h
  | case2 rest ih =>
    intro hx
    rw [normNewlines] at hx
    rcases List.mem_cons.mp hx with rfl | hx'
    · exact Or.inr rfl
    · rcases ih hx' with h | h
      · exact Or.inl (List.mem_cons_of_mem _ (List.mem_cons_of_mem _ h))
      · exact Or.inr h
  | case3 rest hne ih =>
    intro hx
    rw [normNewlines] at hx
    · rcases List.mem_cons.mp hx with rfl | hx'
      · exact Or.inr rfl
      · rcases ih hx' with h | h
        · exact Or.inl (List.mem_cons_of_mem _ h)
        · exact Or.inr h
    · exact hne
  | case4 c rest h2 h3 ih =>
    intro hx
    rw [normNewlines] at hx
    · rcases List.mem_cons.mp hx with rfl | hx'
      · exact Or.inl (List.mem_cons_self _ _)
      · rcases ih hx' with h | h
        · exact Or.inl (List.mem_cons_of_mem _ h)
        · exact Or.inr h
    · exact h2
    · exact h3

/-- Newline normalization leaves no carriage return. -/
theorem normNewlines_no_cr : ∀ {t}, '\r' ∉ normNewlines t := by
  intro t
  induction t using normNewlines.induct with
  | case1 => simp [normNewlines]
  | case2 rest ih =>
    rw [normNewlines]
    intro hx
    rcases List.mem_cons.mp hx with h | h
    · exact absurd h (by decide)
    · exact ih h
  | case3 rest hne ih =>
    rw [normNewlines]
    · intro hx
      rcases List.mem_cons.mp hx with h | h
      · exact absurd h (by decide)
      · exact ih h
    · exact hne
  | case4 c rest h2 h3 ih =>
    rw [normNewlines]
    · intro hx
      rcases List.mem_cons.mp hx with h | h
      · exact h3 h.symm
      · exact ih h
    · exact h2
    · exact h3

/-! ### Normalizer idempotence (C7): fixpoint lemmas -/

/-- A string with no zero-width characters is fixed by the filter. -/
theorem filter_zw_id {t : List Char} (h : ∀ x ∈ t, isZeroWidth x = false) :
    t.filter (fun c => !isZeroWidth c) = t := by
  apply List.filter_eq_self.mpr
  intro a ha
  simp [h a ha]

/-- A string with no carriage return is fixed by newline normalization. -/
theorem normNewlines_id : ∀ {t}, '\r' ∉ t → normNewlines t = t := by
  intro t
  induction t using normNewlines.induct with
  | case1 => intro _; rfl
  | case2 rest ih =>
    intro h
    exact absurd (List.mem_cons_self _ _) h
  | case3 rest hne ih =>
    intro h
    exact absurd (List.mem_cons_self _ _) h
  | case4 c rest h2 h3 ih =>
    intro h
    rw [normNewlines]
    · rw [ih (fun hm => h (List.mem_cons_of_mem _ hm))]
    · exact h2
    · exact h3

/-- Unfolding of `joinLines` on a cons with a nonempty tail. -/
theorem joinLines_cons_ne (l : List Char) {ls : List (List Char)} (h : ls ≠ []) :
    joinLines (l :: ls) = l ++ '\n' :: joinLines ls := by
  cases ls with
  | nil => exact absurd rfl h
  | cons l2 ls2 => rfl

/-- Joining the split lines restores the string. -/
theorem joinLines_splitLines (t : List Char) : joinLines (splitLines t) = t := by
  induction t with
  | nil => rfl
  | cons c rest ih =>
    simp only [splitLines]
    split_ifs with h1
    · rw [joinLines_cons_ne _ (splitLines_ne_nil rest), ih, h1]
      rfl
    · cases hs : splitLines rest with
      | nil => exact absurd hs (splitLines_ne_nil rest)
      | cons l0 ls =>
        rw [List.modifyHead_cons]
        cases ls with
        | nil =>
          have hrest : l0 = rest := by
            rw [hs] at ih
            simpa [joinLines] using ih
          simp [joinLines, hrest]
        | cons l2 ls2 =>
          rw [hs, joinLines_cons₂] at ih
          rw [joinLines_cons₂, ← ih]
          simp

/-- A newline-free string splits into itself alone. -/
theorem splitLines_no_nl_id {l : List Char} (h : '\n' ∉ l) : splitLines l = [l] := by
  induction l with
  | nil => rfl
  | cons c rest ih =>
    have hc : ¬ c = '\n' := fun hc => h (by rw [← hc]; exact List.mem_cons_self c rest)
    rw [splitLines_cons_ne hc, ih (fun hm => h (List.mem_cons_of_mem _ hm)),
      List.modifyHead_cons]

/-- Splitting after a newline-free prefix peels exactly that line off. -/
theorem splitLines_append_nl (l r : List Char) (h : '\n' ∉ l) :
    splitLines (l ++ '\n' :: r) = l :: splitLines r := by
  induction l with
  | nil => simp [splitLines]
  | cons c rest ih =>
    have hc : ¬ c = '\n' := fun hc => h (by rw [← hc]; exact List.mem_cons_self c rest)
    rw [List.cons_append, splitLines_cons_ne hc,
      ih (fun hm => h (List.mem_cons_of_mem _ hm)), List.modifyHead_cons]

/-- Splitting a join of newline-free lines restores the lines. -/
theorem splitLines_joinLines : ∀ {ls : List (List Char)}, (∀ l ∈ ls, '\n' ∉ l) → ls ≠ [] →
    splitLines (joinLines ls) = ls := by
  intro ls
  induction ls with
  | nil => intro _ h; exact absurd rfl h
  | cons l ls' ih =>
    intro hnl _
    cases ls' with
    | nil => simpa [joinLines] using splitLines_no_nl_id (hnl l (List.mem_cons_self _ _))
    | cons l2 ls2 =>
      rw [joinLines_cons₂, splitLines_append_nl _ _ (hnl l (List.mem_cons_self _ _)),
        ih (fun m hm => hnl m (List.mem_cons_of_mem _ hm)) (by simp)]

/-- A tab-free string with no adjacent space/tab pair is fixed by the
collapse, in both machine states (the running state needs a non-class
head). -/
theorem collapse_id_aux : ∀ {t : List Char}, '\t' ∉ t → List.Chain' noSS t →
    (collapseRunsBy isSpTab false t = t ∧
      ((t.head?.all fun c => !isSpTab c) = true → collapseRunsBy isSpTab true t = t)) := by
  intro t
  induction t with
  | nil => exact fun _ _ => ⟨rfl, fun _ => rfl⟩
  | cons c rest ih =>
    intro htab hch
    have htab' : '\t' ∉ rest := fun hm => htab (List.mem_cons_of_mem _ hm)
    obtain ⟨ih1, ih2⟩ := ih htab' hch.tail
    by_cases hc : isSpTab c = true
    · have hcsp : c = ' ' := by
        by_contra hsp
        have hct : c = '\t' := by
          unfold isSpTab at hc
          simpa [hsp] using hc
        exact htab (by rw [← hct]; exact List.mem_cons_self c rest)
      constructor
      · have hh : (rest.head?.all fun c => !isSpTab c) = true := by
          cases rest with
          | nil => rfl
          | cons d r2 =>
            have hns := (List.chain'_cons.mp hch).1
            unfold noSS at hns
            by_cases hd : isSpTab d = true
            · exact absurd ⟨hc, hd⟩ hns
            · simp [hd]
        have hstep : collapseRunsBy isSpTab false (c :: rest) =
            ' ' :: collapseRunsBy isSpTab true rest := by
          simp [collapseRunsBy, hc]
        rw [hstep, ih2 hh, hcsp]
      · intro hhead
        simp [hc] at hhead
    · constructor
      · have hstep : collapseRunsBy isSpTab false (c :: rest) =
            c :: collapseRunsBy isSpTab false rest := by
          simp [collapseRunsBy, hc]
        rw [hstep, ih1]
      · intro _
        have hstep : collapseRunsBy isSpTab true (c :: rest) =
            c :: collapseRunsBy isSpTab false rest := by
          simp [collapseRunsBy, hc]
        rw [hstep, ih1]

/-- Dropping from the front does nothing when the head does not satisfy the
predicate. -/
theorem dropWhile_head_id {p : Char → Bool} {t : List Char}
    (h : (t.head?.all fun c => !p c) = true) : t.dropWhile p = t := by
  cases t with
  | nil => rfl
  | cons c rest =>
    simp only [List.head?_cons, Option.all_some] at h
    rw [List.dropWhile_cons, if_neg (by simp_all)]

/-- A string with clean edges is fixed by `jsTrim`. -/
theorem jsTrim_id {t : List Char} (h : edgeClean t) : jsTrim t = t := by
  unfold jsTrim trimLeft trimRight
  rw [dropWhile_head_id h.1]
  rw [dropWhile_head_id (by rw [List.head?_reverse]; exact h.2), List.reverse_reverse]

/-- Leading-newline count of a newline cons. -/
theorem leadNL_cons_nl (u : List Char) : leadNL ('\n' :: u) = leadNL u + 1 := by
  simp [leadNL, List.takeWhile_cons]

/-- Leading-newline count of a non-newline cons. -/
theorem leadNL_cons_other {c : Char} (h : ¬ c = '\n') (u : List Char) :
    leadNL (c :: u) = 0 := by
  simp [leadNL, List.takeWhile_cons, h]

/-- Leading newlines only grow when appending on the right. -/
theorem leadNL_append_le (u w : List Char) : leadNL u ≤ leadNL (u ++ w) := by
  induction u with
  | nil => simp [leadNL]
  | cons c u' ih =>
    by_cases hc : c = '\n'
    · subst hc
      rw [List.cons_append, leadNL_cons_nl, leadNL_cons_nl]
      omega
    · rw [List.cons_append, leadNL_cons_other hc, leadNL_cons_other hc]

/-- A leading pair of newlines, as a boolean. -/
theorem twoLeadNL (x y : Char) (r : List Char) :
    decide (2 ≤ leadNL (x :: y :: r)) = ((x == '\n') && (y == '\n')) := by
  by_cases hx : x = '\n'
  · subst hx
    rw [leadNL_cons_nl]
    by_cases hy : y = '\n'
    · subst hy
      rw [leadNL_cons_nl]
      simp [decide_eq_true (show 2 ≤ leadNL r + 1 + 1 by omega)]
    · rw [leadNL_cons_other hy]
      simp [hy]
  · rw [leadNL_cons_other hx]
    simp [hx]

/-- One-step unfolding of the triple-newline test. -/
theorem hasTriple_cons_eq (c : Char) (u : List Char) :
    hasTriple (c :: u) = (((c == '\n') && decide (2 ≤ leadNL u)) || hasTriple u) := by
  match u with
  | [] => simp [hasTriple, leadNL]
  | [x] =>
    by_cases hx : x = '\n' <;>
      simp [hasTriple, leadNL, List.takeWhile_cons, hx]
  | x :: y :: r =>
    rw [twoLeadNL]
    simp [hasTriple, Bool.and_assoc]

/-- A triple-free string starts with at most two newlines. -/
theorem leadNL_le_two_of_no_triple : ∀ {u : List Char}, hasTriple u = false → leadNL u ≤ 2 := by
  intro u h
  rcases u with _ | ⟨a, _ | ⟨b, _ | ⟨c, r⟩⟩⟩
  · simp [leadNL]
  · by_cases ha : a = '\n' <;> simp [leadNL, List.takeWhile_cons, ha]
  · by_cases ha : a = '\n' <;> by_cases hb : b = '\n' <;>
      simp [leadNL, List.takeWhile_cons, ha, hb]
  · by_cases ha : a = '\n' <;> by_cases hb : b = '\n' <;> by_cases hc : c = '\n' <;>
      simp_all [hasTriple, leadNL, List.takeWhile_cons, ha, hb, hc]

/-- Consing preserves an existing triple. -/
theorem hasTriple_cons_of (c : Char) {u : List Char} (h : hasTriple u = true) :
    hasTriple (c :: u) = true := by
  rw [hasTriple_cons_eq, h, Bool.or_true]

/-- Prepending preserves an existing triple. -/
theorem hasTriple_append_left (w : List Char) {u : List Char} (h : hasTriple u = true) :
    hasTriple (w ++ u) = true := by
  induction w with
  | nil => simpa
  | cons c w' ih => exact hasTriple_cons_of c ih

/-- Appending preserves an existing triple. -/
theorem hasTriple_append_right {u : List Char} (w : List Char) (h : hasTriple u = true) :
    hasTriple (u ++ w) = true := by
  induction u with
  | nil => simp [hasTriple] at h
  | cons c u' ih =>
    rw [hasTriple_cons_eq] at h
    rw [List.cons_append, hasTriple_cons_eq]
    cases h2 : hasTriple u' with
    | true => rw [ih h2, Bool.or_true]
    | false =>
      rw [h2, Bool.or_false] at h
      have hc : (c == '\n') = true := by
        cases hcb : (c == '\n')
        · rw [hcb, Bool.false_and] at h; cases h
        · rfl
      have hl : 2 ≤ leadNL u' := by
        cases hlb : decide (2 ≤ leadNL u')
        · rw [hlb, Bool.and_false] at h; cases h
        · exact of_decide_eq_true hlb
      have h3 := leadNL_append_le u' w
      rw [hc, Bool.true_and, decide_eq_true (by omega : 2 ≤ leadNL (u' ++ w))]
      simp

/-- Triples are inherited downward along infixes (contrapositive form). -/
theorem hasTriple_infix {u t : List Char} (hinf : u <:+: t) (h : hasTriple t = false) :
    hasTriple u = false := by
  by_contra hu
  rw [Bool.not_eq_false] at hu
  obtain ⟨s1, s2, heq⟩ := hinf
  rw [← heq, List.append_assoc, hasTriple_append_left s1 (hasTriple_append_right s2 hu)] at h
  cases h

/-! ### Normalizer idempotence (C7): newline capping -/

/-- The all-false triple test on a tail. -/
theorem hasTriple_of_cons {c : Char} {u : List Char} (h : hasTriple (c :: u) = false) :
    hasTriple u = false := by
  rw [hasTriple_cons_eq] at h
  cases h2 : hasTriple u
  · rfl
  · rw [h2, Bool.or_true] at h; cases h

/-- Head of a capped string when the run budget is not exhausted. -/
theorem capNLGo_le_one_head {run : Nat} (h : run ≤ 1) (t : List Char) :
    (capNLGo run t).head? = t.head? := by
  cases t with
  | nil => rfl
  | cons c rest =>
    simp only [capNLGo]
    split_ifs with h1 h2
    · omega
    · simp [h1]
    · rfl

/-- Head of a zero-state capped string. -/
theorem capNLGo_zero_head (t : List Char) : (capNLGo 0 t).head? = t.head? :=
  capNLGo_le_one_head (by omega) t

/-- For a saturated run the capper just drops the leading newlines. -/
theorem capNLGo_ge_two {run : Nat} (h : 2 ≤ run) :
    ∀ t, capNLGo run t = capNLGo 0 (t.dropWhile (fun c => c == '\n')) := by
  intro t
  induction t with
  | nil => rfl
  | cons c rest ih =>
    by_cases hc : c = '\n'
    · subst hc
      rw [List.dropWhile_cons, if_pos (by simp)]
      rw [show capNLGo run ('\n' :: rest) = capNLGo run rest from by simp [capNLGo, h]]
      exact ih
    · rw [List.dropWhile_cons, if_neg (by simp [hc])]
      simp [capNLGo, hc]

/-- The first character after a leading newline run is chain-adjacent to a
newline. -/
theorem dropNl_pair {P : Char → Char → Prop} :
    ∀ {rest : List Char}, List.Chain' P ('\n' :: rest) →
      ∀ y, ((rest.dropWhile (fun c => c == '\n')).head? = some y) → P '\n' y := by
  intro rest
  induction rest with
  | nil => intro _ y hy; simp at hy
  | cons d r2 ih =>
    intro hch y hy
    by_cases hd : d = '\n'
    · subst hd
      rw [List.dropWhile_cons, if_pos (by simp)] at hy
      exact ih (List.chain'_cons.mp hch).2 y hy
    · rw [List.dropWhile_cons, if_neg (by simp [hd])] at hy
      simp only [List.head?_cons, Option.some.injEq] at hy
      subst hy
      exact (List.chain'_cons.mp hch).1

/-- The capper preserves a chain condition, provided the condition already
holds across each removed newline run. -/
theorem capNLGo_chain' {P : Char → Char → Prop}
    (hP : ∀ (l : List Char) (y : Char), List.Chain' P ('\n' :: l) →
      ((l.dropWhile (fun c => c == '\n')).head? = some y) → P '\n' y) :
    ∀ (t : List Char) (run : Nat), List.Chain' P t → List.Chain' P (capNLGo run t) := by
  intro t
  induction t with
  | nil => intro run _; simp [capNLGo]
  | cons c rest ih =>
    intro run hch
    by_cases hc : c = '\n'
    · subst hc
      by_cases hr : 2 ≤ run
      · rw [show capNLGo run ('\n' :: rest) = capNLGo run rest from by simp [capNLGo, hr]]
        exact ih run hch.tail
      · rw [show capNLGo run ('\n' :: rest) = '\n' :: capNLGo (run + 1) rest from by
          simp [capNLGo, hr]]
        apply List.chain'_cons'.mpr
        refine ⟨fun y hy => ?_, ih (run + 1) hch.tail⟩
        by_cases hr1 : run + 1 ≤ 1
        · rw [capNLGo_le_one_head hr1] at hy
          exact (List.chain'_cons'.mp hch).1 y hy
        · rw [capNLGo_ge_two (by omega) rest, capNLGo_zero_head] at hy
          exact hP rest y hch hy
    · rw [show capNLGo run (c :: rest) = c :: capNLGo 0 rest from by simp [capNLGo, hc]]
      apply List.chain'_cons'.mpr
      refine ⟨fun y hy => ?_, ih 0 hch.tail⟩
      rw [capNLGo_zero_head] at hy
      exact (List.chain'_cons'.mp hch).1 y hy

/-- The capped output has no triple newline, and its leading run respects the
remaining budget. -/
theorem capNLGo_no_triple : ∀ (t : List Char) (run : Nat),
    leadNL (capNLGo run t) ≤ 2 - run ∧ hasTriple (capNLGo run t) = false := by
  intro t
  induction t with
  | nil => intro run; simp [capNLGo, leadNL, hasTriple]
  | cons c rest ih =>
    intro run
    by_cases hc : c = '\n'
    · subst hc
      by_cases hr : 2 ≤ run
      · rw [show capNLGo run ('\n' :: rest) = capNLGo run rest from by simp [capNLGo, hr]]
        exact ih run
      · rw [show capNLGo run ('\n' :: rest) = '\n' :: capNLGo (run + 1) rest from by
          simp [capNLGo, hr]]
        obtain ⟨ihl, iht⟩ := ih (run + 1)
        refine ⟨by rw [leadNL_cons_nl]; omega, ?_⟩
        rw [hasTriple_cons_eq, iht, Bool.or_false]
        have hle : ¬ (2 ≤ leadNL (capNLGo (run + 1) rest)) := by omega
        simp [hle]
    · rw [show capNLGo run (c :: rest) = c :: capNLGo 0 rest from by simp [capNLGo, hc]]
      obtain ⟨ihl, iht⟩ := ih 0
      refine ⟨by rw [leadNL_cons_other hc]; omega, ?_⟩
      rw [hasTriple_cons_eq, iht, Bool.or_false]
      simp [hc]

/-- A triple-free string whose leading run fits the remaining budget is fixed
by the capper. -/
theorem capNLGo_id : ∀ {t : List Char} {run : Nat}, run + leadNL t ≤ 2 →
    hasTriple t = false → capNLGo run t = t := by
  intro t
  induction t with
  | nil => intro run _ _; rfl
  | cons c rest ih =>
    intro run hlead htrip
    by_cases hc : c = '\n'
    · subst hc
      rw [leadNL_cons_nl] at hlead
      have hr : ¬ 2 ≤ run := by omega
      rw [show capNLGo run ('\n' :: rest) = '\n' :: capNLGo (run + 1) rest from by
        simp [capNLGo, hr]]
      rw [ih (by omega) (hasTriple_of_cons htrip)]
    · rw [show capNLGo run (c :: rest) = c :: capNLGo 0 rest from by simp [capNLGo, hc]]
      have h2 := leadNL_le_two_of_no_triple (hasTriple_of_cons htrip)
      rw [ih (by omega) (hasTriple_of_cons htrip)]

/-! ### Normalizer idempotence (C7): edges, chains, joins -/

/-- A pair whose left member is outside the space/tab class is never an
adjacent space/tab pair. -/
theorem noSS_of_left {a : Char} (h : isSpTab a = false) (b : Char) : noSS a b := by
  intro hab
  rw [h] at hab
  exact Bool.false_ne_true hab.1

/-- A pair whose right member is outside the space/tab class is never an
adjacent space/tab pair. -/
theorem noSS_of_right {b : Char} (h : isSpTab b = false) (a : Char) : noSS a b := by
  intro hab
  rw [h] at hab
  exact Bool.false_ne_true hab.2

/-- A newline is not in the space/tab class. -/
theorem isSpTab_nl : isSpTab '\n' = false := by decide

/-- The collapse output has no adjacent space/tab pair, and in the running
state it starts outside the class. -/
theorem collapse_chain : ∀ (t : List Char) (b : Bool),
    List.Chain' noSS (collapseRunsBy isSpTab b t) ∧
    ((collapseRunsBy isSpTab true t).head?.all fun c => !isSpTab c) = true := by
  intro t
  induction t with
  | nil => intro b; exact ⟨List.chain'_nil, rfl⟩
  | cons c rest ih =>
    intro b
    by_cases hc : isSpTab c = true
    · have hstep_t : collapseRunsBy isSpTab true (c :: rest) =
          collapseRunsBy isSpTab true rest := by
        simp [collapseRunsBy, hc]
      have hstep_f : collapseRunsBy isSpTab false (c :: rest) =
          ' ' :: collapseRunsBy isSpTab true rest := by
        simp [collapseRunsBy, hc]
      refine ⟨?_, by rw [hstep_t]; exact (ih true).2⟩
      cases b with
      | true => rw [hstep_t]; exact (ih true).1
      | false =>
        rw [hstep_f]
        apply List.chain'_cons'.mpr
        refine ⟨fun y hy => ?_, (ih true).1⟩
        have h2 := (ih true).2
        rw [Option.mem_def.mp hy, Option.all_some] at h2
        exact noSS_of_right (by simpa using h2) ' '
    · have hstep : ∀ b', collapseRunsBy isSpTab b' (c :: rest) =
          c :: collapseRunsBy isSpTab false rest := by
        intro b'
        simp [collapseRunsBy, hc]
      refine ⟨?_, ?_⟩
      · rw [hstep b]
        apply List.chain'_cons'.mpr
        exact ⟨fun y _ => noSS_of_left (by simpa using hc) y, (ih false).1⟩
      · rw [hstep true]
        simp only [List.head?_cons, Option.all_some]
        simpa using hc

/-- A newline-free string has clean newline adjacency. -/
theorem chain'_of_no_nl : ∀ {l : List Char}, '\n' ∉ l → List.Chain' nlAdj l := by
  intro l
  induction l with
  | nil => intro _; exact List.chain'_nil
  | cons c rest ih =>
    intro h
    apply List.chain'_cons'.mpr
    refine ⟨fun y hy => ?_, ih (fun hm => h (List.mem_cons_of_mem _ hm))⟩
    have hc : ¬ c = '\n' := fun hcc => h (by rw [← hcc]; exact List.mem_cons_self c rest)
    have hyr : y ∈ rest := List.mem_of_mem_head? hy
    have hy' : ¬ y = '\n' := fun hyy =>
      h (List.mem_cons_of_mem _ (by rw [← hyy]; exact hyr))
    exact ⟨fun hcc => absurd hcc hc, fun hyy => absurd hyy hy'⟩

/-- Joining lines free of adjacent space/tab pairs gives a string free of
them: the inserted newlines are outside the class. -/
theorem join_chain_noSS : ∀ {ls : List (List Char)}, (∀ l ∈ ls, List.Chain' noSS l) →
    List.Chain' noSS (joinLines ls) := by
  intro ls
  induction ls with
  | nil => intro _; exact List.chain'_nil
  | cons l ls' ih =>
    intro h
    cases ls' with
    | nil => exact h l (List.mem_cons_self _ _)
    | cons l2 ls2 =>
      rw [joinLines_cons₂]
      apply List.chain'_append.mpr
      refine ⟨h l (List.mem_cons_self _ _), ?_, ?_⟩
      · apply List.chain'_cons'.mpr
        exact ⟨fun y _ => noSS_of_left isSpTab_nl y,
          ih (fun m hm => h m (List.mem_cons_of_mem _ hm))⟩
      · intro x _ y hy
        simp only [List.head?_cons, Option.mem_def, Option.some.injEq] at hy
        subst hy
        exact noSS_of_right isSpTab_nl x

/-- The head of a join is an inserted newline or the head of a line. -/
theorem joinLines_head_cases : ∀ (ls : List (List Char)) (y : Char),
    (joinLines ls).head? = some y →
    y = '\n' ∨ ∃ l ∈ ls, l.head? = some y := by
  intro ls y
  cases ls with
  | nil => intro h; simp [joinLines] at h
  | cons l ls' =>
    cases ls' with
    | nil =>
      intro h
      exact Or.inr ⟨l, List.mem_cons_self _ _, by simpa [joinLines] using h⟩
    | cons l2 ls2 =>
      rw [joinLines_cons₂]
      cases l with
      | nil =>
        intro h
        rw [List.nil_append, List.head?_cons, Option.some.injEq] at h
        exact Or.inl h.symm
      | cons c lr =>
        intro h
        rw [List.cons_append, List.head?_cons, Option.some.injEq] at h
        exact Or.inr ⟨c :: lr, List.mem_cons_self _ _, by rw [List.head?_cons, h]⟩

/-- Joining newline-free edge-clean lines gives clean newline adjacency. -/
theorem join_chain_nlAdj : ∀ {ls : List (List Char)},
    (∀ l ∈ ls, '\n' ∉ l ∧ edgeClean l ∧ List.Chain' nlAdj l) →
    List.Chain' nlAdj (joinLines ls) := by
  intro ls
  induction ls with
  | nil => intro _; exact List.chain'_nil
  | cons l ls' ih =>
    intro h
    cases ls' with
    | nil => exact (h l (List.mem_cons_self _ _)).2.2
    | cons l2 ls2 =>
      rw [joinLines_cons₂]
      apply List.chain'_append.mpr
      refine ⟨(h l (List.mem_cons_self _ _)).2.2, ?_, ?_⟩
      · apply List.chain'_cons'.mpr
        refine ⟨fun y hy => ?_, ih (fun m hm => h m (List.mem_cons_of_mem _ hm))⟩
        rcases joinLines_head_cases (l2 :: ls2) y (Option.mem_def.mp hy) with rfl | ⟨m, hm, hmy⟩
        · exact ⟨fun _ => Or.inl rfl, fun _ => Or.inl rfl⟩
        · have he := (h m (List.mem_cons_of_mem _ hm)).2.1
          have hws : jsWhitespace y = false := by
            have h1 := he.1
            rw [hmy, Option.all_some] at h1
            simpa using h1
          exact ⟨fun _ => Or.inr hws, fun _ => Or.inl rfl⟩
      · intro x hx y hy
        simp only [List.head?_cons, Option.mem_def, Option.some.injEq] at hy
        subst hy
        have he := (h l (List.mem_cons_self _ _)).2.1
        have hws : jsWhitespace x = false := by
          have h2 := he.2
          rw [Option.mem_def.mp hx, Option.all_some] at h2
          simpa using h2
        exact ⟨fun _ => Or.inl rfl, fun _ => Or.inr hws⟩

/-- Dropping a prefix leaves a head that fails the predicate. -/
theorem dropWhile_head_not (p : Char → Bool) : ∀ (t : List Char),
    ((t.dropWhile p).head?.all fun c => !p c) = true := by
  intro t
  induction t with
  | nil => rfl
  | cons c rest ih =>
    rw [List.dropWhile_cons]
    split_ifs with h
    · exact ih
    · simp only [List.head?_cons, Option.all_some]
      simpa using h

/-- Right trimming yields a prefix. -/
theorem trimRight_prefix_self (s : List Char) : trimRight s <+: s := by
  unfold trimRight
  apply List.reverse_suffix.mp
  rw [List.reverse_reverse]
  exact List.dropWhile_suffix _

/-- Trimming yields an infix. -/
theorem jsTrim_infix_self (s : List Char) : jsTrim s <:+: s :=
  ((trimRight_prefix_self (trimLeft s)).isInfix).trans (List.dropWhile_suffix jsWhitespace).isInfix

/-- The trimmed string has clean edges. -/
theorem jsTrim_edgeClean (s : List Char) : edgeClean (jsTrim s) := by
  constructor
  · cases hp : jsTrim s with
    | nil => rfl
    | cons c r =>
      have hp' : trimRight (trimLeft s) = c :: r := hp
      obtain ⟨z, hz⟩ := trimRight_prefix_self (trimLeft s)
      rw [hp'] at hz
      have hw : ((trimLeft s).head?.all fun x => !jsWhitespace x) = true :=
        dropWhile_head_not jsWhitespace s
      have hhead : (trimLeft s).head? = some c := by rw [← hz]; rfl
      rw [hhead, Option.all_some] at hw
      simp only [List.head?_cons, Option.all_some]
      exact hw
  · show ((jsTrim s).getLast?.all fun c => !jsWhitespace c) = true
    unfold jsTrim trimRight
    rw [List.getLast?_reverse]
    exact dropWhile_head_not jsWhitespace (trimLeft s).reverse

/-! ### Normalizer idempotence (C7): line structure and assembly -/

/-- Either a string has no newline and splits into itself, or it peels off a
first newline-free line. -/
theorem split_structure : ∀ t : List Char,
    ('\n' ∉ t ∧ splitLines t = [t]) ∨
    (∃ l0 r, t = l0 ++ '\n' :: r ∧ '\n' ∉ l0 ∧ splitLines t = l0 :: splitLines r) := by
  intro t
  induction t with
  | nil => exact Or.inl ⟨by simp, rfl⟩
  | cons c rest ih =>
    by_cases hc : c = '\n'
    · subst hc
      exact Or.inr ⟨[], rest, rfl, by simp, splitLines_cons_nl rest⟩
    · rcases ih with ⟨hnl, hs⟩ | ⟨l0, r, heq, hnl0, hs⟩
      · refine Or.inl ⟨?_, ?_⟩
        · intro hm
          rcases List.mem_cons.mp hm with h | h
          · exact hc h.symm
          · exact hnl h
        · rw [splitLines_cons_ne hc, hs, List.modifyHead_cons]
      · refine Or.inr ⟨c :: l0, r, by rw [List.cons_append, ← heq], ?_, ?_⟩
        · intro hm
          rcases List.mem_cons.mp hm with h | h
          · exact hc h.symm
          · exact hnl0 h
        · rw [splitLines_cons_ne hc, hs, List.modifyHead_cons]

/-- Every line of a string with clean newline adjacency and clean-or-newline
edges is edge-clean.  The fuel `n` bounds the length for the recursion. -/
theorem lines_trimmed : ∀ (n : Nat) (t : List Char), t.length ≤ n →
    List.Chain' nlAdj t →
    (t.head?.all fun c => (c == '\n') || !jsWhitespace c) = true →
    (t.getLast?.all fun c => (c == '\n') || !jsWhitespace c) = true →
    ∀ l ∈ splitLines t, edgeClean l := by
  intro n
  induction n with
  | zero =>
    intro t hlen _ _ _ l hl
    have ht : t = [] := List.length_eq_zero.mp (Nat.le_zero.mp hlen)
    subst ht
    simp only [splitLines, List.mem_singleton] at hl
    subst hl
    exact ⟨rfl, rfl⟩
  | succ n ih =>
    intro t hlen hch hhead hlast l hl
    rcases split_structure t with ⟨hnl, hs⟩ | ⟨l0, r, heq, hnl0, hs⟩
    · rw [hs, List.mem_singleton] at hl
      subst hl
      rcases ht : l with _ | ⟨c, rest⟩
      · exact ⟨rfl, rfl⟩
      · subst ht
        have hcn : ¬ c = '\n' := fun hcc =>
          hnl (by rw [← hcc]; exact List.mem_cons_self c rest)
        constructor
        · simp only [List.head?_cons, Option.all_some] at hhead ⊢
          rw [show (c == '\n') = false by simpa using hcn, Bool.false_or] at hhead
          exact hhead
        · cases hg : (c :: rest).getLast? with
          | none => rfl
          | some x =>
            have hx : x ∈ c :: rest := List.mem_of_mem_getLast? (Option.mem_def.mpr hg)
            have hxn : ¬ x = '\n' := fun hxx => hnl (by rw [← hxx]; exact hx)
            rw [hg, Option.all_some] at hlast
            rw [Option.all_some]
            rw [show (x == '\n') = false by simpa using hxn, Bool.false_or] at hlast
            exact hlast
    · subst heq
      obtain ⟨hch0, hchR, hbd⟩ := List.chain'_append.mp hch
      rw [hs, List.mem_cons] at hl
      rcases hl with rfl | hl'
      · constructor
        · rcases l with _ | ⟨c, rest0⟩
          · rfl
          · have hcn : ¬ c = '\n' := fun hcc =>
              hnl0 (by rw [← hcc]; exact List.mem_cons_self c rest0)
            rw [List.cons_append] at hhead
            simp only [List.head?_cons, Option.all_some] at hhead ⊢
            rw [show (c == '\n') = false by simpa using hcn, Bool.false_or] at hhead
            exact hhead
        · cases hg : l.getLast? with
          | none => rfl
          | some x =>
            have hadjx : nlAdj x '\n' :=
              hbd x (Option.mem_def.mpr hg) '\n' (Option.mem_def.mpr rfl)
            have hx : x ∈ l := List.mem_of_mem_getLast? (Option.mem_def.mpr hg)
            have hxn : ¬ x = '\n' := fun hxx => hnl0 (by rw [← hxx]; exact hx)
            have hws : jsWhitespace x = false := by
              rcases hadjx.2 rfl with h | h
              · exact absurd h hxn
              · exact h
            rw [Option.all_some]
            simp [hws]
      · have hlen' : r.length ≤ n := by
          have h2 : (l0 ++ '\n' :: r).length = l0.length + (r.length + 1) := by simp
          omega
        have hheadr : (r.head?.all fun c => (c == '\n') || !jsWhitespace c) = true := by
          cases hr : r.head? with
          | none => rfl
          | some y =>
            have hadjy : nlAdj '\n' y :=
              (List.chain'_cons'.mp hchR).1 y (Option.mem_def.mpr hr)
            rw [Option.all_some]
            rcases hadjy.1 rfl with h | h
            · simp [h]
            · simp [h]
        have hlastr : (r.getLast?.all fun c => (c == '\n') || !jsWhitespace c) = true := by
          cases hg : r.getLast? with
          | none => rfl
          | some x =>
            have hrne : r ≠ [] := by
              intro h0
              subst h0
              simp at hg
            have h1 : ('\n' :: r).getLast? = some x := by
              cases r with
              | nil => exact absurd rfl hrne
              | cons d r2 => rw [List.getLast?_cons_cons]; exact hg
            have hgl : (l0 ++ '\n' :: r).getLast? = some x := by
              rw [List.getLast?_append, h1]
              rfl
            rw [hgl, Option.all_some] at hlast
            rw [Option.all_some]
            exact hlast
        exact ih r hlen' hchR.tail hheadr hlastr l hl'

/-- The staged unfolding of `compactWhitespace`. -/
theorem compactWhitespace_eq (s : List Char) : compactWhitespace s =
    jsTrim (capNLGo 0 (joinLines
      ((splitLines (normNewlines (s.filter (fun c => !isZeroWidth c)))).map
        (fun line => jsTrim (collapseSpTab line))))) := rfl

/-- A string in normal form is a fixed point of `compactWhitespace`. -/
theorem compactWhitespace_fixed {t : List Char} (h : normalForm t) :
    compactWhitespace t = t := by
  obtain ⟨hzw, hcr, htab, hss, hadj, htrip, hedge⟩ := h
  have hhead : (t.head?.all fun c => (c == '\n') || !jsWhitespace c) = true := by
    cases hh : t.head? with
    | none => rfl
    | some c =>
      have h1 := hedge.1
      rw [hh, Option.all_some] at h1
      rw [Option.all_some, h1, Bool.or_true]
  have hlast : (t.getLast?.all fun c => (c == '\n') || !jsWhitespace c) = true := by
    cases hh : t.getLast? with
    | none => rfl
    | some c =>
      have h1 := hedge.2
      rw [hh, Option.all_some] at h1
      rw [Option.all_some, h1, Bool.or_true]
  have hlines : ∀ l ∈ splitLines t, jsTrim (collapseSpTab l) = l := by
    intro l hl
    have hinf := splitLines_infix_mem t l hl
    have htab' : '\t' ∉ l := fun hm => htab (hinf.subset hm)
    have hss' : List.Chain' noSS l := List.Chain'.infix hss hinf
    have hedge' : edgeClean l := lines_trimmed t.length t (le_refl _) hadj hhead hlast l hl
    have hcoll : collapseSpTab l = l := (collapse_id_aux htab' hss').1
    rw [hcoll]
    exact jsTrim_id hedge'
  have hmap : (splitLines t).map (fun line => jsTrim (collapseSpTab line)) = splitLines t := by
    have h1 : (splitLines t).map (fun line => jsTrim (collapseSpTab line)) =
        (splitLines t).map id := List.map_congr_left (fun a ha => hlines a ha)
    rw [h1, List.map_id]
  rw [compactWhitespace_eq, filter_zw_id hzw, normNewlines_id hcr, hmap,
    joinLines_splitLines,
    capNLGo_id (by simpa using leadNL_le_two_of_no_triple htrip) htrip]
  exact jsTrim_id hedge

/-- The normalizer always produces a string in normal form. -/
theorem compact_normalForm (s : List Char) : normalForm (compactWhitespace s) := by
  rw [compactWhitespace_eq]
  have hzwb : ∀ x ∈ normNewlines (s.filter (fun c => !isZeroWidth c)),
      isZeroWidth x = false := by
    intro x hx
    rcases mem_normNewlines hx with hx' | rfl
    · have h1 := (List.mem_filter.mp hx').2
      simpa using h1
    · decide
  have hLprop : ∀ fl ∈ (splitLines (normNewlines (s.filter (fun c => !isZeroWidth c)))).map
      (fun line => jsTrim (collapseSpTab line)),
      '\n' ∉ fl ∧ edgeClean fl ∧ List.Chain' nlAdj fl ∧ List.Chain' noSS fl := by
    intro fl hfl
    rw [List.mem_map] at hfl
    obtain ⟨l, hl, rfl⟩ := hfl
    have hnl : '\n' ∉ jsTrim (collapseSpTab l) := by
      intro hm
      have h2 := jsTrim_subset _ _ hm
      rcases mem_collapseRunsBy h2 with ⟨hxl, _⟩ | heq2
      · exact splitLines_no_nl _ l hl hxl
      · exact absurd heq2 (by decide)
    refine ⟨hnl, jsTrim_edgeClean _, chain'_of_no_nl hnl, ?_⟩
    exact List.Chain'.infix (collapse_chain l false).1 (jsTrim_infix_self _)
  have hmemv : ∀ x ∈ joinLines
      ((splitLines (normNewlines (s.filter (fun c => !isZeroWidth c)))).map
        (fun line => jsTrim (collapseSpTab line))),
      x = '\n' ∨ x = ' ' ∨ (x ∈ normNewlines (s.filter (fun c => !isZeroWidth c)) ∧
        isSpTab x = false) := by
    intro x hx
    rcases mem_joinLines hx with rfl | ⟨fl, hfl, hxfl⟩
    · exact Or.inl rfl
    · rw [List.mem_map] at hfl
      obtain ⟨l, hl, rfl⟩ := hfl
      have hx2 := jsTrim_subset _ x hxfl
      rcases mem_collapseRunsBy hx2 with ⟨hxl, hsp⟩ | rfl
      · exact Or.inr (Or.inr ⟨(splitLines_infix_mem _ l hl).subset hxl, hsp⟩)
      · exact Or.inr (Or.inl rfl)
  have hvnoSS := join_chain_noSS (fun l hl => (hLprop l hl).2.2.2)
  have hvnlAdj := join_chain_nlAdj
    (fun l hl => ⟨(hLprop l hl).1, (hLprop l hl).2.1, (hLprop l hl).2.2.1⟩)
  have hunoSS := capNLGo_chain' (fun l y _ _ => noSS_of_left isSpTab_nl y) _ 0 hvnoSS
  have hunlAdj := capNLGo_chain' (fun l y hch hy => dropNl_pair hch y hy) _ 0 hvnlAdj
  have hutrip := (capNLGo_no_triple (joinLines
      ((splitLines (normNewlines (s.filter (fun c => !isZeroWidth c)))).map
        (fun line => jsTrim (collapseSpTab line)))) 0).2
  have hmemt : ∀ x ∈ jsTrim (capNLGo 0 (joinLines
      ((splitLines (normNewlines (s.filter (fun c => !isZeroWidth c)))).map
        (fun line => jsTrim (collapseSpTab line))))),
      x = '\n' ∨ x = ' ' ∨ (x ∈ normNewlines (s.filter (fun c => !isZeroWidth c)) ∧
        isSpTab x = false) :=
    fun x hx => hmemv x (mem_capNLGo (jsTrim_subset _ x hx))
  refine ⟨?_, ?_, ?_, ?_, ?_, ?_, ?_⟩
  · intro x hx
    rcases hmemt x hx with rfl | rfl | ⟨hxb, _⟩
    · decide
    · decide
    · exact hzwb x hxb
  · intro hm
    rcases hmemt '\r' hm with h | h | ⟨hxb, _⟩
    · exact absurd h (by decide)
    · exact absurd h (by decide)
    · exact normNewlines_no_cr hxb
  · intro hm
    rcases hmemt '\t' hm with h | h | ⟨_, hsp⟩
    · exact absurd h (by decide)
    · exact absurd h (by decide)
    · exact absurd hsp (by decide)
  · exact List.Chain'.infix hunoSS (jsTrim_infix_self _)
  · exact List.Chain'.infix hunlAdj (jsTrim_infix_self _)
  · exact hasTriple_infix (jsTrim_infix_self _) hutrip
  · exact jsTrim_edgeClean _

/-- C7: the normalizer `compactWhitespace` is idempotent — applying it twice
to any string yields the same result as applying it once. -/
theorem c7_compact_idempotent (s : List Char) :
    compactWhitespace (compactWhitespace s) = compactWhitespace s :=
  compactWhitespace_fixed (compact_normalForm s)

end RagModel
